import Mathlib

/-!
Verification development for the nifigator NIF graph module
(`src/nifigator/nifgraph.py`).

The embedding below models:
- RDF triples and the triple store as a list of statements (rdflib graphs
  are sets of triples; adding an already-present statement is a no-op);
- the per-subject triple aggregation of `NifGraph.collection.query_rdf_type`;
- the reconstruction `NifGraph.collection` and the fallback on `DEFAULT_URI`;
- the tabular reporting view `NifGraph.catalog`;
- the file/zip dispatch of `NifGraph.__parse_file`;
- the ingestion of a collection by `NifGraph.__parse_collection`;
- the identifier minting of `NifGraph.__parse_nafdocument`
  (`"nif-" + uuid.uuid3(uuid.NAMESPACE_DNS, doc_uri).hex`), with a full
  executable MD5 so that the uuid3 construction is the real one.

URIs are modelled as prefixed names (the graph binds the nif, olia, dc and
dcterms prefixes in `NifGraph.__init__`); predicate identifiers are strings
in that prefixed form, which is also what `n3(namespace_manager)` yields for
them in `catalog`.

The classes `NifContext`, `NifContextCollection`, the converter and the
vocabulary constants live in files of the repository that are not under
`src/` (`nifobjects.py`, `converters.py`, `const.py`); the definitions
embedding them are marked `Modelled from the spec:` in their doc comment and
follow the specification text.
-/

namespace Nifigator

/-- An RDF node: a URI reference, a string literal or an integer literal.
Literal values and their Python `.value` projections are identified. -/
inductive Obj
  | uri (s : String)
  | lit (s : String)
  | litNat (n : Nat)
deriving DecidableEq

/-- A statement: subject, predicate (always a URI, kept as a prefixed name),
object. -/
abbrev Triple := Obj × String × Obj

/-- A triple store, in iteration order.  rdflib stores are sets of triples:
stores built by the ingestion functions below never hold duplicates. -/
abbrev Store := List Triple

/-- The string form of a node (`str` of a URIRef or Literal). -/
def objStr : Obj → String
  | .uri s => s
  | .lit s => s
  | .litNat n => toString n

/-! ### Vocabulary

Modelled from the spec: the fixed predicate identifiers of the wire format
(type markers for Collection and Context, the has-context link, the
conforms-to provenance predicate, offset-anchored span predicates and the
linguistic-annotation namespace).  `const.py` is not under `src/`. -/

def rdfTypePred : String := "rdf:type"

def hasContextPred : String := "nif:hasContext"

def isStringPred : String := "nif:isString"

def beginIndexPred : String := "nif:beginIndex"

def endIndexPred : String := "nif:endIndex"

def referenceContextPred : String := "nif:referenceContext"

def anchorOfPred : String := "nif:anchorOf"

def conformsToPred : String := "dcterms:conformsTo"

def contextCollectionType : Obj := .uri "nif:ContextCollection"

def contextType : Obj := .uri "nif:Context"

def phraseType : Obj := .uri "nif:Phrase"

/-- Modelled from the spec: the linguistic-annotation namespace; membership
of a value in the namespace (`val in OLIA` in `query_rdf_type`) is the test
that the value starts with the namespace identifier. -/
def oliaNS : String := "olia:"

/-- Whether the first character list is a prefix of the second. -/
def charsPrefix : List Char → List Char → Bool
  | [], _ => true
  | _ :: _, [] => false
  | c :: cs, d :: ds => if c = d then charsPrefix cs ds else false

/-- `val in OLIA` of `NifGraph.collection.query_rdf_type` (line 232):
the string form of the value starts with the namespace identifier. -/
def inOlia (o : Obj) : Bool := charsPrefix oliaNS.data (objStr o).data

/-- `DEFAULT_URI` (nifgraph.py line 23). -/
def defaultUri : String := "https://mangosaurus.eu/rdf-data/"

/-! ### Store operations

`Graph.add` of rdflib inserts a statement into the set of statements of the
store: a statement already present is left alone (spec section 6, store
capability `add(Statement)`). -/

/-- Add one statement to the store (set insertion). -/
def addTriple (st : Store) (t : Triple) : Store :=
  if t ∈ st then st else st ++ [t]

/-- Add a list of statements to the store, in order. -/
def addAll (st : Store) (ts : List Triple) : Store :=
  ts.foldl addTriple st

/-! ### MD5 and uuid3

`NifGraph.__parse_nafdocument` (lines 123-124) mints the context name as
`"nif-" + str(uuid.uuid3(uuid.NAMESPACE_DNS, doc_uri).hex)`.  `uuid.uuid3`
is the name-based MD5 UUID: the MD5 digest of the namespace bytes followed
by the UTF-8 encoding of the name, with the version nibble forced to 3 and
the variant bits forced to 10.  Everything below is the standard MD5
(RFC 1321) over byte lists, machine words as `Nat` reduced mod 2^32. -/

/-- Reduce to a 32-bit word. -/
def m32 (n : Nat) : Nat := n % 4294967296

/-- Left rotation of a 32-bit word. -/
def rotl32 (x n : Nat) : Nat := m32 ((x <<< n) ||| (x >>> (32 - n)))

/-- Bitwise complement of a 32-bit word. -/
def not32 (x : Nat) : Nat := x ^^^ 4294967295

/-- The 64 MD5 sine-derived round constants. -/
def md5K : List Nat :=
  [0xd76aa478, 0xe8c7b756, 0x242070db, 0xc1bdceee,
   0xf57c0faf, 0x4787c62a, 0xa8304613, 0xfd469501,
   0x698098d8, 0x8b44f7af, 0xffff5bb1, 0x895cd7be,
   0x6b901122, 0xfd987193, 0xa679438e, 0x49b40821,
   0xf61e2562, 0xc040b340, 0x265e5a51, 0xe9b6c7aa,
   0xd62f105d, 0x02441453, 0xd8a1e681, 0xe7d3fbc8,
   0x21e1cde6, 0xc33707d6, 0xf4d50d87, 0x455a14ed,
   0xa9e3e905, 0xfcefa3f8, 0x676f02d9, 0x8d2a4c8a,
   0xfffa3942, 0x8771f681, 0x6d9d6122, 0xfde5380c,
   0xa4beea44, 0x4bdecfa9, 0xf6bb4b60, 0xbebfbc70,
   0x289b7ec6, 0xeaa127fa, 0xd4ef3085, 0x04881d05,
   0xd9d4d039, 0xe6db99e5, 0x1fa27cf8, 0xc4ac5665,
   0xf4292244, 0x432aff97, 0xab9423a7, 0xfc93a039,
   0x655b59c3, 0x8f0ccc92, 0xffeff47d, 0x85845dd1,
   0x6fa87e4f, 0xfe2ce6e0, 0xa3014314, 0x4e0811a1,
   0xf7537e82, 0xbd3af235, 0x2ad7d2bb, 0xeb86d391]

/-- The 64 MD5 per-round left-rotation amounts. -/
def md5S : List Nat :=
  [7, 12, 17, 22, 7, 12, 17, 22, 7, 12, 17, 22, 7, 12, 17, 22,
   5, 9, 14, 20, 5, 9, 14, 20, 5, 9, 14, 20, 5, 9, 14, 20,
   4, 11, 16, 23, 4, 11, 16, 23, 4, 11, 16, 23, 4, 11, 16, 23,
   6, 10, 15, 21, 6, 10, 15, 21, 6, 10, 15, 21, 6, 10, 15, 21]

/-- MD5 padding: append `0x80`, zero bytes up to 56 mod 64, then the bit
length as eight little-endian bytes. -/
def padMsg (msg : List Nat) : List Nat :=
  let bitLen := msg.length * 8
  msg ++ [0x80] ++ List.replicate ((119 - msg.length % 64) % 64) 0 ++
    (List.range 8).map (fun i => bitLen >>> (8 * i) % 256)

/-- Split a byte list into 64-byte chunks (structural recursion on fuel so
that the kernel can evaluate it; the fuel is the list length, enough for
64-byte steps). -/
def chunkifyF : Nat → List Nat → List (List Nat)
  | 0, _ => []
  | fuel + 1, l => if l.isEmpty then [] else l.take 64 :: chunkifyF fuel (l.drop 64)

/-- Split a byte list into 64-byte chunks. -/
def chunkify (l : List Nat) : List (List Nat) := chunkifyF l.length l

/-- Word `i` of a 64-byte chunk, little-endian. -/
def leWord (chunk : List Nat) (i : Nat) : Nat :=
  chunk.getD (4 * i) 0 + 256 * chunk.getD (4 * i + 1) 0 +
    65536 * chunk.getD (4 * i + 2) 0 + 16777216 * chunk.getD (4 * i + 3) 0

/-- One MD5 round. -/
def md5Round (chunk : List Nat) (st : Nat × Nat × Nat × Nat) (i : Nat) :
    Nat × Nat × Nat × Nat :=
  let a := st.1
  let b := st.2.1
  let c := st.2.2.1
  let d := st.2.2.2
  let f :=
    if i < 16 then (b &&& c) ||| (not32 b &&& d)
    else if i < 32 then (d &&& b) ||| (not32 d &&& c)
    else if i < 48 then b ^^^ c ^^^ d
    else c ^^^ (b ||| not32 d)
  let g :=
    if i < 16 then i
    else if i < 32 then (5 * i + 1) % 16
    else if i < 48 then (3 * i + 5) % 16
    else (7 * i) % 16
  let rot := rotl32 (m32 (a + f + md5K.getD i 0 + leWord chunk g)) (md5S.getD i 0)
  (d, m32 (b + rot), b, c)

/-- Process one 64-byte chunk. -/
def md5Chunk (st : Nat × Nat × Nat × Nat) (chunk : List Nat) :
    Nat × Nat × Nat × Nat :=
  let r := (List.range 64).foldl (md5Round chunk) st
  (m32 (st.1 + r.1), m32 (st.2.1 + r.2.1), m32 (st.2.2.1 + r.2.2.1),
    m32 (st.2.2.2 + r.2.2.2))

/-- The four little-endian bytes of a 32-bit word. -/
def toLE4 (x : Nat) : List Nat :=
  [x % 256, x / 256 % 256, x / 65536 % 256, x / 16777216 % 256]

/-- The MD5 digest of a byte list: sixteen bytes. -/
def md5Digest (msg : List Nat) : List Nat :=
  let r := (chunkify (padMsg msg)).foldl md5Chunk
    (0x67452301, 0xefcdab89, 0x98badcfe, 0x10325476)
  toLE4 r.1 ++ toLE4 r.2.1 ++ toLE4 r.2.2.1 ++ toLE4 r.2.2.2

/-- UTF-8 encoding of one character. -/
def charUtf8 (c : Char) : List Nat :=
  let n := c.toNat
  if n < 128 then [n]
  else if n < 2048 then [192 + n / 64, 128 + n % 64]
  else if n < 65536 then [224 + n / 4096, 128 + n / 64 % 64, 128 + n % 64]
  else [240 + n / 262144, 128 + n / 4096 % 64, 128 + n / 64 % 64, 128 + n % 64]

/-- UTF-8 encoding of a string as a byte list. -/
def utf8Bytes (s : String) : List Nat := s.data.flatMap charUtf8

/-- The sixteen bytes of `uuid.NAMESPACE_DNS`
(6ba7b810-9dad-11d1-80b4-00c04fd430c8). -/
def namespaceDNSBytes : List Nat :=
  [0x6b, 0xa7, 0xb8, 0x10, 0x9d, 0xad, 0x11, 0xd1,
   0x80, 0xb4, 0x00, 0xc0, 0x4f, 0xd4, 0x30, 0xc8]

/-- The sixteen bytes of a version-3 UUID: the MD5 digest of namespace bytes
followed by the UTF-8 name, with byte 6 forced to version 3 and byte 8 to
variant 10.  `(b &&& 0x0F) ||| 0x30 = b % 16 + 48` and
`(b &&& 0x3F) ||| 0x80 = b % 64 + 128` since the masked bits are disjoint
from the forced bits. -/
def uuid3Bytes (ns : List Nat) (name : String) : List Nat :=
  match md5Digest (ns ++ utf8Bytes name) with
  | [b0, b1, b2, b3, b4, b5, b6, b7, b8, b9, b10, b11, b12, b13, b14, b15] =>
    [b0, b1, b2, b3, b4, b5, b6 % 16 + 48, b7,
     b8 % 64 + 128, b9, b10, b11, b12, b13, b14, b15]
  | l => l

/-- Big-endian byte-list to natural number. -/
def beBytesToNat (l : List Nat) : Nat := l.foldl (fun acc b => acc * 256 + b) 0

/-- The 128-bit integer of the version-3 UUID (`UUID.int`). -/
def uuid3Int (ns : List Nat) (name : String) : Nat :=
  beBytesToNat (uuid3Bytes ns name)

/-- `UUID.hex`: the 32 lowercase hexadecimal digits of the 128-bit integer. -/
def natToHex32 (n : Nat) : String :=
  let ds := Nat.toDigits 16 n
  String.mk (List.replicate (32 - ds.length) '0' ++ ds)

/-- The minted context name of `NifGraph.__parse_nafdocument` (line 124):
`"nif-" + str(uuid.uuid3(uuid.NAMESPACE_DNS, doc_uri).hex)`. -/
def docUuid (docUri : String) : String :=
  "nif-" ++ natToHex32 (uuid3Int namespaceDNSBytes docUri)

/-- The key family used for the pigeonhole argument on identifier
distinctness: pairwise distinct document URIs. -/
def repKey (n : Nat) : String := String.mk (List.replicate n 'a')

/-! ### The typed object model

Modelled from the spec: `nifobjects.py` is not under `src/`.  A span
annotation is a half-open character offset range plus a label (spec
section 3); a Context is a unit of text with its spans; a Collection groups
Contexts and carries a conformance profile. -/

/-- Modelled from the spec: a span annotation
(offset-begin, offset-end, label). -/
structure NifSpan where
  offB : Nat
  offE : Nat
  lbl : String
deriving DecidableEq

/-- Modelled from the spec: a Context (identifier, raw text, span
annotations). -/
structure NifContext where
  uri : String
  text : String
  spans : List NifSpan
deriving DecidableEq

/-- Modelled from the spec: a Collection (identifier, conformance profile,
contexts). -/
structure NifContextCollection where
  uri : String
  conformsTo : String
  contexts : List NifContext
deriving DecidableEq

/-- Modelled from the spec: the deterministic span identifier, minted from
the context identifier and the character-offset range (spec section 4.1,
key shape 2). -/
def spanUri (ctxUri : String) (sp : NifSpan) : String :=
  ctxUri ++ "#offset_" ++ toString sp.offB ++ "_" ++ toString sp.offE

/-- Modelled from the spec: the statements a span contributes to
`Collection.triples()` (type marker, reference to its context, the
offset-anchored span predicates and the label). -/
def spanTriples (ctxUri : String) (sp : NifSpan) : List Triple :=
  [(.uri (spanUri ctxUri sp), rdfTypePred, phraseType),
   (.uri (spanUri ctxUri sp), referenceContextPred, .uri ctxUri),
   (.uri (spanUri ctxUri sp), beginIndexPred, .litNat sp.offB),
   (.uri (spanUri ctxUri sp), endIndexPred, .litNat sp.offE),
   (.uri (spanUri ctxUri sp), anchorOfPred, .lit sp.lbl)]

/-- Modelled from the spec: the statements a context contributes (type
marker, raw text, and its spans). -/
def contextTriples (c : NifContext) : List Triple :=
  [(.uri c.uri, rdfTypePred, contextType),
   (.uri c.uri, isStringPred, .lit c.text)] ++
    c.spans.flatMap (spanTriples c.uri)

/-- Modelled from the spec: `Collection.triples()` — the full flattened
statement set of a collection (type marker, conformance profile,
has-context links, then the statements of each context). -/
def collectionTriples (col : NifContextCollection) : List Triple :=
  [(.uri col.uri, rdfTypePred, contextCollectionType),
   (.uri col.uri, conformsToPred, .uri col.conformsTo)] ++
    col.contexts.map (fun c => (.uri col.uri, hasContextPred, .uri c.uri)) ++
    col.contexts.flatMap contextTriples

/-- `NifGraph.__parse_collection` (lines 142-152): add every statement of
`collection.triples()` to the graph. -/
def parseCollection (st : Store) (col : NifContextCollection) : Store :=
  addAll st (collectionTriples col)

/-! ### Association lists (Python dicts in insertion order) -/

/-- Dict lookup. -/
def alistGet {α : Type} {β : Type} [DecidableEq α] : List (α × β) → α → Option β
  | [], _ => none
  | (q, v) :: rest, k => if q = k then some v else alistGet rest k

/-- Dict update: an existing key keeps its position, a new key is appended
(Python 3 dicts preserve insertion order). -/
def alistSet {α : Type} {β : Type} [DecidableEq α] :
    List (α × β) → α → β → List (α × β)
  | [], k, v => [(k, v)]
  | (q, w) :: rest, k, v =>
    if q = k then (q, v) :: rest else (q, w) :: alistSet rest k v

/-- The list with later duplicates dropped, keeping first occurrences not in
`seen` (dict-key insertion order). -/
def firstSeenAux {α : Type} [DecidableEq α] (seen : List α) : List α → List α
  | [] => []
  | a :: rest =>
    if a ∈ seen then firstSeenAux seen rest
    else a :: firstSeenAux (a :: seen) rest

/-- The list with later duplicates dropped, keeping first occurrences. -/
def firstSeen {α : Type} [DecidableEq α] (l : List α) : List α :=
  firstSeenAux [] l

/-! ### The reconstruction `NifGraph.collection` (lines 200-267) -/

/-- A dict value of `query_rdf_type`: either the last single value assigned,
or the list accumulated for `nif:hasContext` and OLIA values. -/
inductive PredVal
  | one (v : Obj)
  | many (vs : List Obj)
deriving DecidableEq

/-- The predicate dict of one subject. -/
abbrev PredMap := List (String × PredVal)

/-- The aggregation dict `d` of `query_rdf_type`. -/
abbrev Agg := List (Obj × PredMap)

/-- The slot of subject `s`, predicate `p`. -/
def aggSlot (a : Agg) (s : Obj) (p : String) : Option PredVal :=
  match alistGet a s with
  | none => none
  | some m => alistGet m p

/-- The keys of the aggregation dict, in insertion order. -/
def aggKeys (a : Agg) : List Obj := a.map fun x => x.1

/-- One row of `query_rdf_type` applied to one slot: `nif:hasContext` values
and values in the OLIA namespace are appended to the list in the slot
(`d[idx][col].append(val)` raises `AttributeError`, modelled as `none`, when
the slot holds a single value, since URIRef and Literal are `str` subclasses
without `append`); any other value overwrites the slot
(`d[idx][col] = val`). -/
def slotStep (p : String) (cur : Option PredVal) (v : Obj) : Option PredVal :=
  if p = hasContextPred ∨ inOlia v = true then
    match cur with
    | none => some (.many [v])
    | some (.many vs) => some (.many (vs ++ [v]))
    | some (.one _) => none
  else some (.one v)

/-- One result row of `query_rdf_type` applied to the aggregation dict. -/
def aggStep (a : Agg) (t : Triple) : Option Agg :=
  match slotStep t.2.1 (aggSlot a t.1 t.2.1) t.2.2 with
  | none => none
  | some pv => some (alistSet a t.1 (alistSet ((alistGet a t.1).getD []) t.2.1 pv))

/-- `query_rdf_type`: fold the result rows into the dict; `none` models the
`AttributeError` escaping the loop. -/
def aggregateFrom (a : Agg) : List Triple → Option Agg
  | [] => some a
  | t :: rest =>
    match aggStep a t with
    | none => none
    | some a' => aggregateFrom a' rest

/-- Aggregation of a row list starting from the empty dict. -/
def aggregate (rows : List Triple) : Option Agg := aggregateFrom [] rows

/-- The result rows of the query `?s rdf:type <ty> . ?s ?p ?o`: every
statement whose subject carries the requested type, in store iteration
order. -/
def typedRows (st : Store) (ty : Obj) : List Triple :=
  st.filter fun t => decide ((t.1, rdfTypePred, ty) ∈ st)

/-- `query_rdf_type` of `NifGraph.collection` (lines 207-240). -/
def queryRdfType (st : Store) (ty : Obj) : Option Agg :=
  aggregate (typedRows st ty)

/-- The objects of the rows of subject `s` and predicate `p`, in row
order. -/
def findObjs (rows : List Triple) (s : Obj) (p : String) : List Obj :=
  (rows.filter fun t => decide (t.1 = s ∧ t.2.1 = p)).map fun t => t.2.2

/-- The per-slot fold underlying the aggregation, used to characterise it:
`none` is the `AttributeError`, `some cur` the final slot state. -/
def slotFoldF (p : String) : Option PredVal → List Obj → Option (Option PredVal)
  | cur, [] => some cur
  | cur, v :: vs =>
    match slotStep p cur v with
    | none => none
    | some pv => slotFoldF p (some pv) vs

/-- The per-slot fold from the absent state. -/
def slotFold (p : String) (vs : List Obj) : Option (Option PredVal) :=
  slotFoldF p none vs

/-- A reconstructed context (`NifContext().load(graph, uri)`). -/
structure LoadedContext where
  uri : Obj
  text : Option Obj
  spans : List NifSpan
deriving DecidableEq

/-- A reconstructed collection. -/
structure LoadedCollection where
  uri : Obj
  contexts : List LoadedContext
deriving DecidableEq

/-- Modelled from the spec: the reconstruction of one span annotation from
the statements of its subject — the offset-anchored span predicates and the
label; a span whose fields are not all present is skipped. -/
def extractSpan (st : Store) (s : Obj) : Option NifSpan :=
  match (findObjs st s beginIndexPred).head?,
      (findObjs st s endIndexPred).head?,
      (findObjs st s anchorOfPred).head? with
  | some (.litNat b), some (.litNat e), some (.lit l) => some ⟨b, e, l⟩
  | _, _, _ => none

/-- Modelled from the spec: `NifContext.load` (`nifobjects.py`, not under
`src/`) — reconstruct a context by identifier lookup within the store: its
raw text from the `nif:isString` statement, and one span annotation per
subject that references the context. -/
def loadContext (st : Store) (u : Obj) : LoadedContext :=
  { uri := u
    text := (findObjs st u isStringPred).head?
    spans :=
      ((st.filter fun t => decide (t.2.1 = referenceContextPred ∧ t.2.2 = u)).map
          fun t => t.1).filterMap (extractSpan st) }

/-- Modelled from the spec: `NifContextCollection.add_context` — a
collection keeps contexts with unique identifiers (spec section 3), so a
context whose identifier is already present is not added again. -/
def addContext (col : LoadedCollection) (c : LoadedContext) : LoadedCollection :=
  if c.uri ∈ col.contexts.map (fun x => x.uri) then col
  else { col with contexts := col.contexts ++ [c] }

/-- The loop loading and adding one context per identifier
(`NifContext(...).load(graph=self, uri=context_uri)` then
`collection.add_context(...)`). -/
def buildFromUrisAux (st : Store) (acc : List LoadedContext) :
    List Obj → List LoadedContext
  | [] => acc
  | u :: us =>
    if u ∈ acc.map (fun c => c.uri) then buildFromUrisAux st acc us
    else buildFromUrisAux st (acc ++ [loadContext st u]) us

/-- Build a collection from a list of context identifiers. -/
def buildFromUris (st : Store) (colUri : Obj) (uris : List Obj) :
    LoadedCollection :=
  { uri := colUri, contexts := buildFromUrisAux st [] uris }

/-- The members of a dict value iterated by
`for context_uri in d[collection_uri][predicate]`: the elements of a list
value; a single (string) value would be iterated character-wise by Python —
that case is unreachable for `nif:hasContext` slots, which are always
lists. -/
def predValObjs : PredVal → List Obj
  | .many vs => vs
  | .one v => (objStr v).data.map fun c => Obj.uri (String.mk [c])

/-- `NifGraph.collection` (lines 200-267): aggregate the
Collection-typed and the Context-typed subjects; if the collection dict is
non-empty, build the result from the first key and its `nif:hasContext`
list (the `return` inside the first loop iteration); otherwise synthesize a
collection from the supplied URI holding every Context-typed subject.
`none` models the `AttributeError` of the aggregation escaping the
property. -/
def NifGraph.collection (st : Store) (uri : String) : Option LoadedCollection :=
  match aggregate (typedRows st contextCollectionType),
      aggregate (typedRows st contextType) with
  | some dictCollections, some dictContext =>
    match dictCollections with
    | (collectionUri, pm) :: _ =>
      some (buildFromUris st collectionUri
        (match alistGet pm hasContextPred with
         | some pv => predValObjs pv
         | none => []))
    | [] => some (buildFromUris st (Obj.uri uri) (dictContext.map fun x => x.1))
  | _, _ => none

/-- The public property access `graph.collection`: the `uri` parameter of
the property getter can never be supplied by a caller, so it is always
`DEFAULT_URI` (lines 200-201). -/
def collectionProperty (st : Store) : Option LoadedCollection :=
  NifGraph.collection st defaultUri

/-- The subjects typed as Collection, in store iteration order (with one
entry per statement of such a subject, as in the query results). -/
def collSubjects (st : Store) : List Obj :=
  (typedRows st contextCollectionType).map fun t => t.1

/-- The objects of the `nif:hasContext` statements of subject `s` among the
Collection-typed rows, in store iteration order. -/
def hasContextObjs (st : Store) (s : Obj) : List Obj :=
  findObjs (typedRows st contextCollectionType) s hasContextPred

/-- Whether a list of slot values never has an OLIA-namespace value after a
value outside the namespace (the aggregation raises on such a slot). -/
def oliaOrdered (vs : List Obj) : Bool :=
  (vs.dropWhile inOlia).all fun v => !(inOlia v)

/-! ### The reporting view `NifGraph.catalog` (lines 269-311) -/

/-- Whether the character list in the second argument contains the first as
a contiguous run. -/
def charsContains (pat : List Char) : List Char → Bool
  | [] => pat.isEmpty
  | c :: rest => charsPrefix pat (c :: rest) || charsContains pat rest

/-- Substring test (Python `in` on strings). -/
def strContains (hay pat : String) : Bool := charsContains pat.data hay.data

/-- `"dc:" in col or "dcterms:" in col` on the prefixed predicate name. -/
def isDcCol (p : String) : Bool := strContains p "dc:" || strContains p "dcterms:"

/-- The results of the query
`?a rdf:type nif:ContextCollection . ?a dcterms:conformsTo ?s`:
the conformance objects of Collection-typed subjects, in store order. -/
def conformsToVals (st : Store) : List Obj :=
  (st.filter fun t =>
      decide (t.2.1 = conformsToPred ∧ (t.1, rdfTypePred, contextCollectionType) ∈ st)).map
    fun t => t.2.2

/-- `", ".join(dcterms_conformsTo)`. -/
def joinedConformsTo (st : Store) : String :=
  String.intercalate ", " ((conformsToVals st).map objStr)

/-- `d[idx][col]` of `catalog`: the last value assigned to a dc/dcterms
column of a row subject (`d[idx][col] = val` overwrites), `none` when the
subscript would raise `KeyError`. -/
def dLookup (results : List Triple) (i : Obj) (c : String) : Option Obj :=
  if isDcCol c then
    ((results.filter fun t => decide (t.1 = i ∧ t.2.1 = c)).map fun t => t.2.2).getLast?
  else none

/-- One cell of the final catalog frame: the collection-wide joined
conformance value in the `dcterms:conformsTo` column (assigned to every row
after construction), the aggregated metadata value elsewhere.  The default
of `getD` is unreachable: `catalog` guards every non-conformance column
with `dLookup` being present. -/
def catalogCell (st : Store) (results : List Triple) (i : Obj) (c : String) : Obj :=
  if c = conformsToPred then Obj.lit (joinedConformsTo st)
  else (dLookup results i c).getD (Obj.lit "")

/-- The catalog frame: column names, row index, and row-major data. -/
structure Table where
  cols : List String
  index : List Obj
  data : List (List Obj)
deriving DecidableEq

/-- The row index of `catalog`: one entry per Context-typed subject, in
first-seen result order (`if idx not in index: index.append(idx)`). -/
def catalogIndex (st : Store) : List Obj :=
  firstSeen ((typedRows st contextType).map fun t => t.1)

/-- The dc/dcterms columns collected by `catalog`.  The Python `set` of
columns is unordered; it is modelled in first-seen order, which the final
sort makes irrelevant. -/
def catalogCols0 (st : Store) : List String :=
  firstSeen ((typedRows st contextType).filterMap fun t =>
    if isDcCol t.2.1 then some t.2.1 else none)

/-- The final column list: the collected columns, with `dcterms:conformsTo`
added when absent (`df['dcterms:conformsTo'] = ...`), sorted by name
(`df.reindex(sorted(df.columns), axis=1)`). -/
def catalogCols (st : Store) : List String :=
  List.insertionSort (fun a b : String => a ≤ b)
    (if conformsToPred ∈ catalogCols0 st then catalogCols0 st
     else catalogCols0 st ++ [conformsToPred])

/-- `NifGraph.catalog` (lines 269-311): one row per Context-typed subject,
the data cells from the aggregation dict (`d[idx][col]` raises `KeyError`,
modelled as `none`, when a row has no value for a collected column), the
`dcterms:conformsTo` column assigned the joined collection-wide value on
every row, and the columns sorted by name. -/
def NifGraph.catalog (st : Store) : Option Table :=
  if (catalogIndex st).all (fun i => (catalogCols0 st).all
      fun c => (dLookup (typedRows st contextType) i c).isSome) then
    some { cols := catalogCols st, index := catalogIndex st,
           data := (catalogIndex st).map fun i => (catalogCols st).map
             fun c => catalogCell st (typedRows st contextType) i c }
  else none

/-! ### File and archive dispatch, `NifGraph.__parse_file` (lines 154-198) -/

/-- The format a zip member is parsed as (lines 183-188): `hext` members as
hext, `ttl` members as turtle, anything else by the format auto-detection
of `self.parse(data=...)`. -/
inductive MemberFormat
  | hext
  | turtle
  | autoDetect
deriving DecidableEq

/-- The top-level dispatch of a file name (lines 168-198). -/
inductive TopRoute
  | nafXml
  | zipArchive
  | hextFile
  | autoFile
deriving DecidableEq

/-- `file[-k:].lower()`. -/
def lowerSuffix (s : String) (k : Nat) : String :=
  String.mk ((s.data.drop (s.data.length - k)).map Char.toLower)

/-- The per-member dispatch inside a zip archive (lines 183-188).  There is
no `naf.xml` case here: such a member falls through to the auto-detected
`self.parse(data=...)`. -/
def zipMemberFormat (name : String) : MemberFormat :=
  if lowerSuffix name 4 = "hext" then .hext
  else if lowerSuffix name 3 = "ttl" then .turtle
  else .autoDetect

/-- The top-level dispatch of `__parse_file` (lines 169, 174, 189, 194). -/
def topRoute (file : String) : TopRoute :=
  if lowerSuffix file 7 = "naf.xml" then .nafXml
  else if lowerSuffix file 3 = "zip" then .zipArchive
  else if lowerSuffix file 4 = "hext" then .hextFile
  else .autoFile

/-- The zip-member loop of `__parse_file` (lines 176-188): each member is
decoded in its dispatched format and its statements added to the graph, in
member order.  `decode` stands for the external rdflib parser of the member
content; `none` is a parse error, which propagates out of the loop leaving
the statements already added in the store (the graph is mutated in place,
there is no staging). -/
def parseZipMembers (decode : MemberFormat → String → Option (List Triple))
    (st : Store) : List (String × String) → Store × Bool
  | [] => (st, true)
  | (name, content) :: rest =>
    match decode (zipMemberFormat name) content with
    | none => (st, false)
    | some ts => parseZipMembers decode (addAll st ts) rest

/-- The store obtained by adding the decoded statements of each member, in
order (the successful run of the zip loop). -/
def addDecoded (decode : MemberFormat → String → Option (List Triple))
    (st : Store) (ms : List (String × String)) : Store :=
  ms.foldl (fun s m => addAll s ((decode (zipMemberFormat m.1) m.2).getD [])) st

/-! ### `NifGraph.__parse_nafdocument` (lines 112-138) -/

/-- The annotation document as consumed by `__parse_nafdocument`: only its
`header` dict-of-dicts is read there (the document class itself is an
external collaborator). -/
structure NafDocument where
  header : List (String × List (String × String))
deriving DecidableEq

/-- The failures of `__parse_nafdocument`: `keyError` models the Python
`KeyError` raised by the dict subscripts on line 123 and carries the missing
key.  Modelled from the spec: `missingSourceURI` is the distinct error the
spec demands (sections 4.2 and 7); nothing in the code constructs it. -/
inductive PyErr
  | keyError (k : String)
  | missingSourceURI (k : String)
deriving DecidableEq

/-- The qualified dc-uri header key of line 123. -/
def dcUriKey : String := "\x7bhttp://purl.org/dc/elements/1.1/\x7duri"

/-- Lines 123-124 of `__parse_nafdocument`:
`nafdocument.header["public"]["...uri"]` then the minted `doc_uuid`.  The
remainder of the method delegates to the external converter and to
`__parse_collection`. -/
def parseNafDocName (doc : NafDocument) : Except PyErr String :=
  match alistGet doc.header "public" with
  | none => .error (.keyError "public")
  | some pub =>
    match alistGet pub dcUriKey with
    | none => .error (.keyError dcUriKey)
    | some u => .ok (docUuid u)

/-- Whether a result is the spec-demanded `MissingSourceURI` failure. -/
def isMissingSrcErr {α : Type} : Except PyErr α → Bool
  | .error (.missingSourceURI _) => true
  | _ => false

/-! ### Round-trip wellformedness

The identifier-uniqueness invariants of the spec (section 3: a collection's
context set has unique identifiers; identifiers are globally unique;
section 4.1: distinct offset ranges give distinct span identifiers). -/

/-- The identifier invariants a collection satisfies by construction. -/
def Wellformed (C : NifContextCollection) : Prop :=
  (∀ c1 ∈ C.contexts, ∀ c2 ∈ C.contexts, c1.uri = c2.uri → c1 = c2) ∧
  (∀ c1 ∈ C.contexts, ∀ s1 ∈ c1.spans, ∀ c2 ∈ C.contexts, ∀ s2 ∈ c2.spans,
    spanUri c1.uri s1 = spanUri c2.uri s2 → c1 = c2 ∧ s1 = s2) ∧
  (∀ c1 ∈ C.contexts, ∀ s1 ∈ c1.spans, ∀ c2 ∈ C.contexts,
    spanUri c1.uri s1 ≠ c2.uri) ∧
  (∀ c ∈ C.contexts, c.uri ≠ C.uri) ∧
  (∀ c ∈ C.contexts, ∀ s1 ∈ c.spans, spanUri c.uri s1 ≠ C.uri)

instance (C : NifContextCollection) : Decidable (Wellformed C) := by
  unfold Wellformed
  infer_instance

instance {ε α : Type} [DecidableEq ε] [DecidableEq α] : DecidableEq (Except ε α) :=
  fun x y =>
    match x, y with
    | .ok a, .ok b =>
      if h : a = b then isTrue (by rw [h]) else isFalse (by simp [h])
    | .error a, .error b =>
      if h : a = b then isTrue (by rw [h]) else isFalse (by simp [h])
    | .ok _, .error _ => isFalse (by simp)
    | .error _, .ok _ => isFalse (by simp)

/-! ### Concrete inputs used by witnesses and counterexamples -/

/-- A one-context, one-span collection (the concrete scenario of spec
section 8). -/
def c1WitColl : NifContextCollection :=
  { uri := "https://ex.org/coll", conformsTo := "https://ex.org/profile",
    contexts := [{ uri := "urn:doc:1", text := "Hello world",
                   spans := [⟨0, 5, "greeting"⟩] }] }

/-- A store whose single Collection-typed subject carries a plain value and
then an OLIA value on the same predicate. -/
def c2CrashStore : Store :=
  [(.uri "https://ex.org/c", rdfTypePred, contextCollectionType),
   (.uri "https://ex.org/c", "nif:oliaLink", .lit "plain"),
   (.uri "https://ex.org/c", "nif:oliaLink", .uri "olia:Noun")]

/-- A store holding two Collection-typed subjects with their own contexts. -/
def c2WitStore : Store :=
  [(.uri "https://ex.org/col1", rdfTypePred, contextCollectionType),
   (.uri "https://ex.org/col1", hasContextPred, .uri "https://ex.org/ctxA"),
   (.uri "https://ex.org/col2", rdfTypePred, contextCollectionType),
   (.uri "https://ex.org/col2", hasContextPred, .uri "https://ex.org/ctxB"),
   (.uri "https://ex.org/ctxA", rdfTypePred, contextType)]

/-- A store whose single Context-typed subject carries a plain value and
then an OLIA value on the same predicate. -/
def c4CrashStore : Store :=
  [(.uri "https://ex.org/w", rdfTypePred, contextType),
   (.uri "https://ex.org/w", "nif:oliaLink", .lit "plain"),
   (.uri "https://ex.org/w", "nif:oliaLink", .uri "olia:Verb")]

/-- A store with a repeated single-valued predicate (last value wins). -/
def c4WitStore : Store :=
  [(.uri "https://ex.org/d", rdfTypePred, contextType),
   (.uri "https://ex.org/d", isStringPred, .lit "abc"),
   (.uri "https://ex.org/d", isStringPred, .lit "def")]

/-- An archive with one well-formed and one malformed member. -/
def c3Zip : List (String × String) := [("a.ttl", "good"), ("b.ttl", "bad")]

/-- A decoder standing for the external rdflib parser: content `"good"`
parses to one statement, anything else raises. -/
def c3Decode : MemberFormat → String → Option (List Triple) := fun _ c =>
  if c = "good" then some [(.uri "https://ex.org/s1", isStringPred, .lit "x")]
  else none

/-- A members list with a failure in the middle. -/
def c3WitZip : List (String × String) :=
  [("a.ttl", "good"), ("b.ttl", "bad"), ("c.ttl", "good")]

/-- A decoder that accepts every member, tagging the dispatched format. -/
def c5Decode : MemberFormat → String → Option (List Triple) := fun f _ =>
  some [(.uri (match f with
      | .hext => "https://ex.org/h"
      | .turtle => "https://ex.org/t"
      | .autoDetect => "https://ex.org/a"), rdfTypePred, contextType)]

/-- An archive with a hext member, a turtle member and an annotation-XML
member. -/
def c5Zip : List (String × String) :=
  [("x.hext", "m1"), ("y.ttl", "m2"), ("doc.naf.xml", "m3")]

/-- A statement present in a store before parsing. -/
def c6Prior : Triple := (.uri "https://ex.org/prior", rdfTypePred, contextType)

/-- A small collection to ingest. -/
def c6Coll : NifContextCollection :=
  { uri := "https://ex.org/c6", conformsTo := "https://ex.org/p",
    contexts := [{ uri := "https://ex.org/c6doc", text := "t", spans := [] }] }

/-- An annotation document with an empty header. -/
def c7Doc : NafDocument := ⟨[]⟩

/-- An annotation document whose header has a `public` entry without the
dc-uri key. -/
def c7WitDoc : NafDocument := ⟨[("public", [])]⟩

/-- A store with a metadata value on one context and a second context
without it. -/
def c9CrashStore : Store :=
  [(.uri "https://ex.org/c1", rdfTypePred, contextType),
   (.uri "https://ex.org/c1", "dc:creator", .lit "ada"),
   (.uri "https://ex.org/c2", rdfTypePred, contextType)]

/-- A store with uniform context metadata and a collection-wide conformance
profile. -/
def c9WitStore : Store :=
  [(.uri "https://ex.org/c1", rdfTypePred, contextType),
   (.uri "https://ex.org/c1", "dc:creator", .lit "ada"),
   (.uri "https://ex.org/c1", "dc:date", .lit "2024"),
   (.uri "https://ex.org/k", rdfTypePred, contextCollectionType),
   (.uri "https://ex.org/k", conformsToPred, .uri "https://ex.org/prof")]

/-- A store with one Context-typed subject and no Collection-typed
subject. -/
def c10WitStore : Store :=
  [(.uri "https://ex.org/ctx", rdfTypePred, contextType)]

/-! ## Lemmas about the store primitives -/

theorem addAll_cons (st : Store) (t : Triple) (ts : List Triple) :
    addAll st (t :: ts) = addAll (addTriple st t) ts := rfl

theorem mem_addTriple {st : Store} {t r : Triple} :
    r ∈ addTriple st t ↔ r ∈ st ∨ r = t := by
  unfold addTriple
  split
  · rename_i h
    constructor
    · exact Or.inl
    · rintro (hr | rfl)
      · exact hr
      · exact h
  · simp

theorem mem_addAll {ts : List Triple} {st : Store} {r : Triple} :
    r ∈ addAll st ts ↔ r ∈ st ∨ r ∈ ts := by
  induction ts generalizing st with
  | nil => simp [addAll]
  | cons t ts ih =>
    rw [addAll_cons, ih, mem_addTriple]
    simp only [List.mem_cons]
    tauto

theorem addAll_eq_self {st : Store} {ts : List Triple} (h : ∀ t ∈ ts, t ∈ st) :
    addAll st ts = st := by
  induction ts generalizing st with
  | nil => rfl
  | cons t ts ih =>
    rw [addAll_cons]
    have ht : addTriple st t = st := by
      unfold addTriple
      rw [if_pos (h t (by simp))]
    rw [ht]
    exact ih fun x hx => h x (by simp [hx])

theorem nodup_addTriple {st : Store} {t : Triple} (h : st.Nodup) :
    (addTriple st t).Nodup := by
  unfold addTriple
  split
  · exact h
  · rename_i hni
    simp [List.nodup_append, h, hni]

theorem nodup_addAll {ts : List Triple} {st : Store} (h : st.Nodup) :
    (addAll st ts).Nodup := by
  induction ts generalizing st with
  | nil => exact h
  | cons t ts ih =>
    rw [addAll_cons]
    exact ih (nodup_addTriple h)

/-! ## C6: additive, idempotent ingestion -/

/-- C6: parsing is additive and idempotent.  Statements already in the store
survive the ingestion of a collection; ingesting the same collection a
second time leaves the store equal (hence every query result equal) to
ingesting it once; and the same two facts hold of adding any decoded
statement list, the primitive every file-based source reduces to. -/
theorem c6_parse_additive_idempotent (st : Store) (C : NifContextCollection) :
    (∀ t ∈ st, t ∈ parseCollection st C) ∧
    parseCollection (parseCollection st C) C = parseCollection st C ∧
    ∀ ts : List Triple, (∀ t ∈ st, t ∈ addAll st ts) ∧
      addAll (addAll st ts) ts = addAll st ts := by
  refine ⟨fun t ht => ?_, ?_, fun ts => ⟨fun t ht => mem_addAll.2 (Or.inl ht), ?_⟩⟩
  · exact mem_addAll.2 (Or.inl ht)
  · exact addAll_eq_self fun t ht => mem_addAll.2 (Or.inr ht)
  · exact addAll_eq_self fun t ht => mem_addAll.2 (Or.inr ht)

/-- C6 witness: the prior statement of a concrete store is still present
after ingesting a concrete collection. -/
theorem c6_witness : c6Prior ∈ parseCollection [c6Prior] c6Coll :=
  (c6_parse_additive_idempotent [c6Prior] c6Coll).1 c6Prior (by decide)

/-! ## C3 and C5: zip archives -/

theorem addDecoded_cons (decode : MemberFormat → String → Option (List Triple))
    (st : Store) (m : String × String) (ms : List (String × String)) :
    addDecoded decode st (m :: ms) =
      addDecoded decode (addAll st ((decode (zipMemberFormat m.1) m.2).getD [])) ms := rfl

theorem mem_addDecoded (decode : MemberFormat → String → Option (List Triple))
    (ms : List (String × String)) (st : Store) (t : Triple) :
    t ∈ addDecoded decode st ms ↔
      t ∈ st ∨ ∃ m ∈ ms, t ∈ (decode (zipMemberFormat m.1) m.2).getD [] := by
  induction ms generalizing st with
  | nil => simp [addDecoded]
  | cons m ms ih =>
    rw [addDecoded_cons, ih]
    simp only [mem_addAll, List.mem_cons]
    constructor
    · rintro (((h | h) | ⟨x, hx, hm⟩))
      · exact Or.inl h
      · exact Or.inr ⟨m, Or.inl rfl, h⟩
      · exact Or.inr ⟨x, Or.inr hx, hm⟩
    · rintro (h | ⟨x, (rfl | hx), hm⟩)
      · exact Or.inl (Or.inl h)
      · exact Or.inl (Or.inr hm)
      · exact Or.inr ⟨x, hx, hm⟩

theorem parseZipMembers_ok (decode : MemberFormat → String → Option (List Triple))
    (ms : List (String × String))
    (h : ∀ m ∈ ms, (decode (zipMemberFormat m.1) m.2).isSome = true) :
    ∀ st, parseZipMembers decode st ms = (addDecoded decode st ms, true) := by
  induction ms with
  | nil => intro st; rfl
  | cons m ms ih =>
    intro st
    obtain ⟨name, content⟩ := m
    have hm : (decode (zipMemberFormat name) content).isSome = true :=
      h (name, content) (List.mem_cons_self _ _)
    obtain ⟨ts, hts⟩ := Option.isSome_iff_exists.1 hm
    show (match decode (zipMemberFormat name) content with
      | none => (st, false)
      | some ts => parseZipMembers decode (addAll st ts) ms) = _
    rw [hts, addDecoded_cons]
    simp only [hts, Option.getD_some]
    exact ih (fun x hx => h x (List.mem_cons_of_mem _ hx)) _

/-- C3 amended: a malformed member aborts the archive ingestion at that
member, leaving the statements of the members parsed before it in the store
(partial commit, no staging or rollback). -/
theorem c3_archive_partial_commit
    (decode : MemberFormat → String → Option (List Triple)) (st : Store)
    (ms1 : List (String × String)) (bad : String × String)
    (ms2 : List (String × String))
    (h1 : ∀ m ∈ ms1, (decode (zipMemberFormat m.1) m.2).isSome = true)
    (h2 : decode (zipMemberFormat bad.1) bad.2 = none) :
    parseZipMembers decode st (ms1 ++ bad :: ms2) =
      (addDecoded decode st ms1, false) := by
  induction ms1 generalizing st with
  | nil =>
    obtain ⟨name, content⟩ := bad
    have h2' : decode (zipMemberFormat name) content = none := h2
    show (match decode (zipMemberFormat name) content with
      | none => (st, false)
      | some ts => parseZipMembers decode (addAll st ts) ms2) = _
    rw [h2']
    rfl
  | cons m ms ih =>
    obtain ⟨name, content⟩ := m
    have hm : (decode (zipMemberFormat name) content).isSome = true :=
      h1 (name, content) (List.mem_cons_self _ _)
    obtain ⟨ts, hts⟩ := Option.isSome_iff_exists.1 hm
    show (match decode (zipMemberFormat name) content with
      | none => (st, false)
      | some ts => parseZipMembers decode (addAll st ts) (ms ++ bad :: ms2)) = _
    rw [hts, addDecoded_cons]
    simp only [hts, Option.getD_some]
    exact ih _ (fun x hx => h1 x (List.mem_cons_of_mem _ hx))

/-- C3 counterexample: ingesting a fresh store from an archive with one
well-formed member and one malformed member leaves the store holding the
statements of the well-formed member — not free of statements from the
archive. -/
theorem c3_counterexample :
    parseZipMembers c3Decode [] c3Zip =
      ([(.uri "https://ex.org/s1", isStringPred, .lit "x")], false) ∧
    ([(.uri "https://ex.org/s1", isStringPred, .lit "x")] : Store) ≠ [] := by
  constructor
  · decide
  · simp

/-- C3 witness: the amended statement at a concrete archive with a failure
in the middle. -/
theorem c3_witness :
    parseZipMembers c3Decode [] c3WitZip =
      (addDecoded c3Decode [] [("a.ttl", "good")], false) :=
  c3_archive_partial_commit c3Decode [] [("a.ttl", "good")] ("b.ttl", "bad")
    [("c.ttl", "good")] (by decide) (by decide)

/-- C5 amended: each zip member is dispatched by its own suffix — `hext`
members as hext, `ttl` members as turtle, and every other member (including
annotation-XML members) through the format auto-detection of the generic
parser — and when every member decodes, the decoded statements of all
members are unioned into the store. -/
theorem c5_zip_member_dispatch (decode : MemberFormat → String → Option (List Triple))
    (st : Store) (ms : List (String × String))
    (h : ∀ m ∈ ms, (decode (zipMemberFormat m.1) m.2).isSome = true) :
    (parseZipMembers decode st ms).2 = true ∧
    (parseZipMembers decode st ms).1 = addDecoded decode st ms ∧
    ∀ t, t ∈ (parseZipMembers decode st ms).1 ↔
      t ∈ st ∨ ∃ m ∈ ms, t ∈ (decode (zipMemberFormat m.1) m.2).getD [] := by
  rw [parseZipMembers_ok decode ms h st]
  exact ⟨rfl, rfl, fun t => mem_addDecoded decode ms st t⟩

/-- C5 counterexample: an annotation-XML member of a zip archive is
dispatched to the generic auto-detected parser, although the top-level
dispatch routes the same file name to the annotation-document parser — zip
members are not dispatched under the same rule as top-level sources. -/
theorem c5_counterexample :
    zipMemberFormat "doc.naf.xml" = MemberFormat.autoDetect ∧
    topRoute "doc.naf.xml" = TopRoute.nafXml := by decide

/-- C5 witness: the amended statement at a concrete archive with a hext
member, a turtle member and an annotation-XML member. -/
theorem c5_witness :
    (parseZipMembers c5Decode [] c5Zip).2 = true ∧
    (parseZipMembers c5Decode [] c5Zip).1 = addDecoded c5Decode [] c5Zip ∧
    ∀ t, t ∈ (parseZipMembers c5Decode [] c5Zip).1 ↔
      t ∈ ([] : Store) ∨ ∃ m ∈ c5Zip, t ∈ (c5Decode (zipMemberFormat m.1) m.2).getD [] :=
  c5_zip_member_dispatch c5Decode [] c5Zip (by decide)

/-! ## C7: missing source URI -/

/-- C7 amended: when the annotation document header carries no resolvable
source-document URI, `__parse_nafdocument` fails with a Python `KeyError`
carrying the missing header key — there is no distinct `MissingSourceURI`
error type — and the error propagates to the caller. -/
theorem c7_missing_uri_keyerror (doc : NafDocument)
    (h : alistGet doc.header "public" = none ∨
      ∃ pub, alistGet doc.header "public" = some pub ∧ alistGet pub dcUriKey = none) :
    ∃ k, parseNafDocName doc = .error (.keyError k) ∧
      (k = "public" ∨ k = dcUriKey) := by
  rcases h with h | ⟨pub, h1, h2⟩
  · exact ⟨"public", by simp [parseNafDocName, h], Or.inl rfl⟩
  · exact ⟨dcUriKey, by simp [parseNafDocName, h1, h2], Or.inr rfl⟩

/-- C7 counterexample: on a document with no resolvable source URI the code
fails with `KeyError`, not with the distinct `MissingSourceURI` failure the
claim demands. -/
theorem c7_counterexample :
    parseNafDocName c7Doc = .error (.keyError "public") ∧
    isMissingSrcErr (parseNafDocName c7Doc) = false := by decide

/-- C7 witness: the amended statement at a concrete document whose header
has a `public` entry without the dc-uri key. -/
theorem c7_witness :
    ∃ k, parseNafDocName c7WitDoc = .error (.keyError k) ∧
      (k = "public" ∨ k = dcUriKey) :=
  c7_missing_uri_keyerror c7WitDoc (Or.inr ⟨[], rfl, rfl⟩)

/-! ## C8: identifier minting -/

theorem beBytesToNat_go_lt (l : List Nat) (h : ∀ b ∈ l, b < 256) :
    ∀ acc : Nat, l.foldl (fun acc b => acc * 256 + b) acc < (acc + 1) * 256 ^ l.length := by
  induction l with
  | nil => intro acc; simp
  | cons b l ih =>
    intro acc
    have hb : b < 256 := h b (List.mem_cons_self _ _)
    have hrec := ih (fun x hx => h x (List.mem_cons_of_mem _ hx)) (acc * 256 + b)
    simp only [List.foldl_cons, List.length_cons]
    refine lt_of_lt_of_le hrec ?_
    have hstep : acc * 256 + b + 1 ≤ (acc + 1) * 256 := by omega
    calc (acc * 256 + b + 1) * 256 ^ l.length
        ≤ ((acc + 1) * 256) * 256 ^ l.length := Nat.mul_le_mul_right _ hstep
      _ = (acc + 1) * 256 ^ (l.length + 1) := by ring

theorem beBytesToNat_lt (l : List Nat) (h : ∀ b ∈ l, b < 256) :
    beBytesToNat l < 256 ^ l.length := by
  have := beBytesToNat_go_lt l h 0
  simpa [beBytesToNat] using this

theorem uuid3Bytes_len_bound (ns : List Nat) (name : String) :
    (uuid3Bytes ns name).length = 16 ∧ ∀ b ∈ uuid3Bytes ns name, b < 256 := by
  simp only [uuid3Bytes, md5Digest, toLE4, List.cons_append, List.nil_append]
  refine ⟨rfl, ?_⟩
  intro b hb
  simp only [List.mem_cons, List.not_mem_nil, or_false] at hb
  rcases hb with rfl | rfl | rfl | rfl | rfl | rfl | rfl | rfl | rfl | rfl | rfl |
    rfl | rfl | rfl | rfl | rfl <;> omega

theorem uuid3Int_lt (ns : List Nat) (name : String) : uuid3Int ns name < 2 ^ 128 := by
  obtain ⟨hlen, hbytes⟩ := uuid3Bytes_len_bound ns name
  have hb := beBytesToNat_lt _ hbytes
  rw [hlen] at hb
  have h2 : (256 : Nat) ^ 16 = 2 ^ 128 := by norm_num
  rw [h2] at hb
  exact hb

theorem repKey_injective : Function.Injective repKey := by
  intro a b h
  have := congrArg (fun s => s.data.length) h
  simpa [repKey] using this

/-- C8 counterexample: the minted identifiers have a fixed length (32
hexadecimal digits of a 128-bit integer), so by counting the minting
function cannot send every pair of distinct keys to distinct URIs. -/
theorem c8_counterexample :
    ¬ ∀ k1 k2 : String, k1 ≠ k2 → docUuid k1 ≠ docUuid k2 := by
  intro h
  obtain ⟨a, -, b, -, hab, hfab⟩ :=
    Finset.exists_ne_map_eq_of_card_lt_of_maps_to
      (s := Finset.range (2 ^ 128 + 1)) (t := Finset.range (2 ^ 128))
      (f := fun n => uuid3Int namespaceDNSBytes (repKey n))
      (by simp) (fun n _ => Finset.mem_range.2 (uuid3Int_lt _ _))
  exact h (repKey a) (repKey b) (fun he => hab (repKey_injective he))
    (by simpa [docUuid] using congrArg (fun n => "nif-" ++ natToHex32 n) hfab)

set_option maxRecDepth 20000 in
/-- C8 amended: the minting function is a pure function of its key — equal
keys give byte-identical URIs — and the tested distinct document URIs give
pairwise-distinct URIs (universal injectivity is impossible for a
fixed-length hash, see the counterexample). -/
theorem c8_identifier_deterministic :
    (∀ k1 k2 : String, k1 = k2 → docUuid k1 = docUuid k2) ∧
    docUuid "urn:doc:1" ≠ docUuid "urn:doc:2" ∧
    docUuid "urn:doc:1" ≠ docUuid "urn:doc:3" ∧
    docUuid "urn:doc:2" ≠ docUuid "urn:doc:3" := by
  refine ⟨fun k1 k2 h => by rw [h], ?_, ?_, ?_⟩ <;> decide

/-- C8 witness: the determinism clause applied at a concrete key. -/
theorem c8_witness : docUuid "urn:doc:1" = docUuid "urn:doc:1" :=
  c8_identifier_deterministic.1 "urn:doc:1" "urn:doc:1" rfl

/-! ## Lemmas about dicts and first-seen order -/

theorem alistGet_alistSet {α β : Type} [DecidableEq α] (m : List (α × β))
    (k k' : α) (v : β) :
    alistGet (alistSet m k v) k' = if k = k' then some v else alistGet m k' := by
  induction m with
  | nil => simp only [alistSet, alistGet]
  | cons x rest ih =>
    obtain ⟨q, w⟩ := x
    by_cases hq : q = k
    · subst hq
      simp only [alistSet, if_pos rfl, alistGet]
      by_cases hk : q = k' <;> simp [hk]
    · simp only [alistSet, if_neg hq, alistGet, ih]
      by_cases hk : k = k' <;> by_cases hq' : q = k' <;> simp_all

theorem keys_alistSet {α β : Type} [DecidableEq α] (m : List (α × β))
    (k : α) (v : β) :
    (alistSet m k v).map (fun x => x.1) =
      if k ∈ m.map (fun x => x.1) then m.map (fun x => x.1)
      else m.map (fun x => x.1) ++ [k] := by
  induction m with
  | nil => simp [alistSet]
  | cons x rest ih =>
    obtain ⟨q, w⟩ := x
    by_cases hq : q = k
    · subst hq
      simp [alistSet]
    · have hkq : ¬ k = q := fun h => hq h.symm
      simp only [alistSet, if_neg hq, List.map_cons, ih, List.mem_cons]
      by_cases hk : k ∈ rest.map (fun x => x.1) <;> simp [hk, hkq]

theorem mem_firstSeenAux {α : Type} [DecidableEq α] {l : List α} :
    ∀ {seen : List α} {x : α}, x ∈ firstSeenAux seen l ↔ x ∈ l ∧ x ∉ seen := by
  induction l with
  | nil => intro seen x; simp [firstSeenAux]
  | cons a l ih =>
    intro seen x
    by_cases ha : a ∈ seen
    · rw [firstSeenAux, if_pos ha, ih]
      constructor
      · rintro ⟨hx, hns⟩
        exact ⟨List.mem_cons_of_mem _ hx, hns⟩
      · rintro ⟨hx, hns⟩
        rcases List.mem_cons.1 hx with rfl | hx
        · exact absurd ha hns
        · exact ⟨hx, hns⟩
    · rw [firstSeenAux, if_neg ha]
      constructor
      · intro hx
        rcases List.mem_cons.1 hx with rfl | hx
        · exact ⟨List.mem_cons_self _ _, ha⟩
        · obtain ⟨h1, h2⟩ := ih.1 hx
          refine ⟨List.mem_cons_of_mem _ h1, fun hs => h2 (List.mem_cons_of_mem _ hs)⟩
      · rintro ⟨hx, hns⟩
        rcases List.mem_cons.1 hx with rfl | hx
        · exact List.mem_cons_self _ _
        · by_cases hxa : x = a
          · subst hxa
            exact List.mem_cons_self _ _
          · exact List.mem_cons_of_mem _ (ih.2 ⟨hx, by simp [hxa, hns]⟩)

theorem mem_firstSeen {α : Type} [DecidableEq α] {l : List α} {x : α} :
    x ∈ firstSeen l ↔ x ∈ l := by
  rw [firstSeen, mem_firstSeenAux]
  simp

theorem firstSeenAux_congr {α : Type} [DecidableEq α] :
    ∀ (l : List α) {s1 s2 : List α}, (∀ x, x ∈ s1 ↔ x ∈ s2) →
      firstSeenAux s1 l = firstSeenAux s2 l := by
  intro l
  induction l with
  | nil => intro s1 s2 _; rfl
  | cons a l ih =>
    intro s1 s2 h
    by_cases ha : a ∈ s1
    · rw [firstSeenAux, if_pos ha, firstSeenAux, if_pos ((h a).1 ha), ih h]
    · rw [firstSeenAux, if_neg ha, firstSeenAux, if_neg (fun hc => ha ((h a).2 hc))]
      congr 1
      exact ih fun x => by simp [List.mem_cons, h x]

theorem firstSeenAux_eq_nil {α : Type} [DecidableEq α] {seen : List α} :
    ∀ {l : List α}, (∀ x ∈ l, x ∈ seen) → firstSeenAux seen l = [] := by
  intro l
  induction l with
  | nil => intro _; rfl
  | cons a l ih =>
    intro h
    rw [firstSeenAux, if_pos (h a (List.mem_cons_self _ _))]
    exact ih fun x hx => h x (List.mem_cons_of_mem _ hx)

theorem nodup_firstSeenAux {α : Type} [DecidableEq α] :
    ∀ (l seen : List α), (firstSeenAux seen l).Nodup := by
  intro l
  induction l with
  | nil => intro seen; exact List.nodup_nil
  | cons a l ih =>
    intro seen
    by_cases ha : a ∈ seen
    · rw [firstSeenAux, if_pos ha]
      exact ih seen
    · rw [firstSeenAux, if_neg ha]
      refine List.Nodup.cons ?_ (ih (a :: seen))
      intro hmem
      exact (mem_firstSeenAux.1 hmem).2 (List.mem_cons_self _ _)

theorem nodup_firstSeen {α : Type} [DecidableEq α] (l : List α) :
    (firstSeen l).Nodup := nodup_firstSeenAux l []

theorem head?_firstSeen {α : Type} [DecidableEq α] (l : List α) :
    (firstSeen l).head? = l.head? := by
  cases l with
  | nil => rfl
  | cons a l => simp [firstSeen, firstSeenAux]

theorem firstSeen_all_eq {α : Type} [DecidableEq α] {l : List α} {a : α}
    (hne : l ≠ []) (h : ∀ x ∈ l, x = a) : firstSeen l = [a] := by
  cases l with
  | nil => exact absurd rfl hne
  | cons b l =>
    have hb : b = a := h b (List.mem_cons_self _ _)
    subst hb
    rw [firstSeen, firstSeenAux, if_neg (List.not_mem_nil b)]
    rw [firstSeenAux_eq_nil fun x hx => by
      rw [h x (List.mem_cons_of_mem _ hx)]
      exact List.mem_singleton_self _]

/-! ## The aggregation of `query_rdf_type`, characterised -/

theorem findObjs_cons (s₀ : Obj) (p₀ : String) (v₀ : Obj) (rest : List Triple)
    (s : Obj) (p : String) :
    findObjs ((s₀, p₀, v₀) :: rest) s p =
      if s₀ = s ∧ p₀ = p then v₀ :: findObjs rest s p else findObjs rest s p := by
  simp only [findObjs, List.filter_cons]
  by_cases h : s₀ = s ∧ p₀ = p <;> simp [h]

theorem mem_findObjs {rows : List Triple} {s : Obj} {p : String} {v : Obj} :
    v ∈ findObjs rows s p ↔ (s, p, v) ∈ rows := by
  simp only [findObjs, List.mem_map, List.mem_filter, decide_eq_true_eq]
  constructor
  · rintro ⟨⟨t1, t2, t3⟩, ⟨ht, h1, h2⟩, rfl⟩
    subst h1
    subst h2
    exact ht
  · intro h
    exact ⟨(s, p, v), ⟨h, rfl, rfl⟩, rfl⟩

theorem aggSlot_update (a : Agg) (s₀ : Obj) (p₀ : String) (pv : PredVal)
    (s : Obj) (p : String) :
    aggSlot (alistSet a s₀ (alistSet ((alistGet a s₀).getD []) p₀ pv)) s p =
      if s₀ = s ∧ p₀ = p then some pv else aggSlot a s p := by
  unfold aggSlot
  rw [alistGet_alistSet]
  by_cases hs : s₀ = s
  · rw [if_pos hs]
    show alistGet (alistSet ((alistGet a s₀).getD []) p₀ pv) p = _
    rw [alistGet_alistSet]
    by_cases hp : p₀ = p
    · rw [if_pos hp, if_pos ⟨hs, hp⟩]
    · rw [if_neg hp, if_neg fun hc => hp hc.2]
      subst hs
      cases hga : alistGet a s₀ with
      | none => simp [alistGet]
      | some pm => simp
  · rw [if_neg hs, if_neg fun hc => hs hc.1]

theorem aggKeys_update (a : Agg) (s₀ : Obj) (pm : PredMap) :
    aggKeys (alistSet a s₀ pm) =
      if s₀ ∈ aggKeys a then aggKeys a else aggKeys a ++ [s₀] :=
  keys_alistSet a s₀ pm

theorem aggregateFrom_spec (rows : List Triple) : ∀ a : Agg,
    (∀ m, aggregateFrom a rows = some m →
      (∀ s p, slotFoldF p (aggSlot a s p) (findObjs rows s p) = some (aggSlot m s p)) ∧
      aggKeys m = aggKeys a ++ firstSeenAux (aggKeys a) (rows.map fun t => t.1)) ∧
    (aggregateFrom a rows = none →
      ∃ s p, slotFoldF p (aggSlot a s p) (findObjs rows s p) = none) := by
  induction rows with
  | nil =>
    intro a
    constructor
    · intro m hm
      injection hm with hm
      subst hm
      refine ⟨fun s p => rfl, ?_⟩
      simp [firstSeenAux]
    · intro h
      simp [aggregateFrom] at h
  | cons t rest ih =>
    intro a
    obtain ⟨s₀, p₀, v₀⟩ := t
    cases hstep : slotStep p₀ (aggSlot a s₀ p₀) v₀ with
    | none =>
      have hrun : aggregateFrom a ((s₀, p₀, v₀) :: rest) = none := by
        simp [aggregateFrom, aggStep, hstep]
      constructor
      · intro m hm
        rw [hrun] at hm
        cases hm
      · intro _
        refine ⟨s₀, p₀, ?_⟩
        rw [findObjs_cons, if_pos ⟨rfl, rfl⟩]
        show (match slotStep p₀ (aggSlot a s₀ p₀) v₀ with
          | none => none
          | some pv => slotFoldF p₀ (some pv) (findObjs rest s₀ p₀)) = none
        rw [hstep]
    | some pv =>
      have hrun : aggregateFrom a ((s₀, p₀, v₀) :: rest) =
          aggregateFrom (alistSet a s₀ (alistSet ((alistGet a s₀).getD []) p₀ pv)) rest := by
        simp [aggregateFrom, aggStep, hstep]
      have hslot' : ∀ s p,
          aggSlot (alistSet a s₀ (alistSet ((alistGet a s₀).getD []) p₀ pv)) s p =
            if s₀ = s ∧ p₀ = p then some pv else aggSlot a s p :=
        fun s p => aggSlot_update a s₀ p₀ pv s p
      constructor
      · intro m hm
        rw [hrun] at hm
        obtain ⟨ihs, ihk⟩ := (ih _).1 m hm
        constructor
        · intro s p
          rw [findObjs_cons]
          by_cases hc : s₀ = s ∧ p₀ = p
          · rw [if_pos hc]
            obtain ⟨hs, hp⟩ := hc
            subst hs
            subst hp
            show (match slotStep p₀ (aggSlot a s₀ p₀) v₀ with
              | none => none
              | some pv => slotFoldF p₀ (some pv) (findObjs rest s₀ p₀)) = _
            rw [hstep]
            have hres := ihs s₀ p₀
            rw [hslot' s₀ p₀, if_pos ⟨rfl, rfl⟩] at hres
            exact hres
          · rw [if_neg hc]
            have hres := ihs s p
            rw [hslot' s p, if_neg hc] at hres
            exact hres
        · rw [ihk, aggKeys_update]
          simp only [List.map_cons]
          by_cases hmem : s₀ ∈ aggKeys a
          · rw [if_pos hmem, firstSeenAux, if_pos hmem]
          · rw [if_neg hmem, firstSeenAux, if_neg hmem, List.append_assoc,
              List.singleton_append]
            congr 2
            exact firstSeenAux_congr _ fun x => by
              simp [List.mem_cons, List.mem_append, or_comm]
      · intro hn
        rw [hrun] at hn
        obtain ⟨s, p, hsp⟩ := (ih _).2 hn
        refine ⟨s, p, ?_⟩
        rw [findObjs_cons]
        by_cases hc : s₀ = s ∧ p₀ = p
        · rw [if_pos hc]
          obtain ⟨hs, hp⟩ := hc
          subst hs
          subst hp
          show (match slotStep p₀ (aggSlot a s₀ p₀) v₀ with
            | none => none
            | some pv => slotFoldF p₀ (some pv) (findObjs rest s₀ p₀)) = none
          rw [hstep]
          rw [hslot' s₀ p₀, if_pos ⟨rfl, rfl⟩] at hsp
          exact hsp
        · rw [if_neg hc]
          rw [hslot' s p, if_neg hc] at hsp
          exact hsp

theorem aggregate_slot {rows : List Triple} {m : Agg} (h : aggregate rows = some m)
    (s : Obj) (p : String) :
    slotFold p (findObjs rows s p) = some (aggSlot m s p) :=
  ((aggregateFrom_spec rows []).1 m h).1 s p

theorem aggregate_keys {rows : List Triple} {m : Agg} (h : aggregate rows = some m) :
    aggKeys m = firstSeen (rows.map fun t => t.1) := by
  have hk := ((aggregateFrom_spec rows []).1 m h).2
  simpa [aggKeys, firstSeen] using hk

theorem aggregate_isSome {rows : List Triple}
    (h : ∀ s p, slotFold p (findObjs rows s p) ≠ none) :
    ∃ m, aggregate rows = some m := by
  cases hag : aggregate rows with
  | none =>
    obtain ⟨s, p, hsp⟩ := (aggregateFrom_spec rows []).2 hag
    exact absurd hsp (h s p)
  | some m => exact ⟨m, rfl⟩

/-! ## The per-slot behaviour -/

theorem slotFoldF_many {p : String} {vs : List Obj}
    (h : ∀ v ∈ vs, p = hasContextPred ∨ inOlia v = true) :
    ∀ ws, slotFoldF p (some (.many ws)) vs = some (some (.many (ws ++ vs))) := by
  induction vs with
  | nil => intro ws; simp [slotFoldF]
  | cons v vs ih =>
    intro ws
    have hv := h v (List.mem_cons_self _ _)
    show (match slotStep p (some (.many ws)) v with
      | none => none
      | some pv => slotFoldF p (some pv) vs) = _
    rw [show slotStep p (some (.many ws)) v = some (.many (ws ++ [v])) from by
      unfold slotStep
      rw [if_pos hv]]
    show slotFoldF p (some (.many (ws ++ [v]))) vs = _
    rw [ih (fun x hx => h x (List.mem_cons_of_mem _ hx)) (ws ++ [v])]
    simp

theorem slotFold_many {p : String} {vs : List Obj} (hne : vs ≠ [])
    (h : ∀ v ∈ vs, p = hasContextPred ∨ inOlia v = true) :
    slotFold p vs = some (some (.many vs)) := by
  cases vs with
  | nil => exact absurd rfl hne
  | cons v vs =>
    have hv := h v (List.mem_cons_self _ _)
    show (match slotStep p none v with
      | none => none
      | some pv => slotFoldF p (some pv) vs) = _
    rw [show slotStep p none v = some (.many [v]) from by
      unfold slotStep
      rw [if_pos hv]]
    show slotFoldF p (some (.many [v])) vs = _
    rw [slotFoldF_many (fun x hx => h x (List.mem_cons_of_mem _ hx)) [v]]
    simp

theorem slotFold_single (p : String) (v : Obj) :
    ∃ pv, slotFold p [v] = some (some pv) := by
  by_cases hc : p = hasContextPred ∨ inOlia v = true
  · exact ⟨.many [v], by simp [slotFold, slotFoldF, slotStep, hc]⟩
  · exact ⟨.one v, by simp [slotFold, slotFoldF, slotStep, hc]⟩

theorem getLast?_cons_eq (w : Obj) (ts : List Obj) :
    (w :: ts).getLast? = some (ts.getLast?.getD w) := by
  induction ts generalizing w with
  | nil => rfl
  | cons v ts ih => rw [List.getLast?_cons_cons, ih v]; cases ts <;> simp [ih]

theorem slotFoldF_one_run {p : String} (hp : p ≠ hasContextPred) {ts : List Obj}
    (h : ∀ v ∈ ts, inOlia v = false) :
    ∀ u, slotFoldF p (some (.one u)) ts = some (some (.one (ts.getLast?.getD u))) := by
  induction ts with
  | nil => intro u; simp [slotFoldF]
  | cons v ts ih =>
    intro u
    have hv : inOlia v = false := h v (List.mem_cons_self _ _)
    show (match slotStep p (some (.one u)) v with
      | none => none
      | some pv => slotFoldF p (some pv) ts) = _
    rw [show slotStep p (some (.one u)) v = some (.one v) from by
      unfold slotStep
      rw [if_neg (by simp [hp, hv])]]
    show slotFoldF p (some (.one v)) ts = _
    rw [ih (fun x hx => h x (List.mem_cons_of_mem _ hx)) v]
    rw [getLast?_cons_eq v ts]
    simp

theorem slotFoldF_mixed {p : String} (hp : p ≠ hasContextPred) :
    ∀ {os : List Obj}, (∀ v ∈ os, inOlia v = true) →
    ∀ {w : Obj}, inOlia w = false →
    ∀ {ts : List Obj}, (∀ v ∈ ts, inOlia v = false) →
    ∀ cur, (cur = none ∨ ∃ ws, cur = some (PredVal.many ws)) →
      slotFoldF p cur (os ++ w :: ts) = some (some (.one (ts.getLast?.getD w))) := by
  intro os
  induction os with
  | nil =>
    rintro _ w hw ts hts cur hcur
    show (match slotStep p cur w with
      | none => none
      | some pv => slotFoldF p (some pv) ts) = _
    rw [show slotStep p cur w = some (.one w) from by
      unfold slotStep
      rw [if_neg (by simp [hp, hw])]]
    exact slotFoldF_one_run hp hts w
  | cons o os ih =>
    rintro hos w hw ts hts cur hcur
    have ho : inOlia o = true := hos o (List.mem_cons_self _ _)
    have hos' : ∀ v ∈ os, inOlia v = true := fun x hx => hos x (List.mem_cons_of_mem _ hx)
    show (match slotStep p cur o with
      | none => none
      | some pv => slotFoldF p (some pv) (os ++ w :: ts)) = _
    rcases hcur with rfl | ⟨ws, rfl⟩
    · rw [show slotStep p none o = some (.many [o]) from by
        unfold slotStep
        rw [if_pos (Or.inr ho)]]
      exact ih hos' hw hts _ (Or.inr ⟨[o], rfl⟩)
    · rw [show slotStep p (some (.many ws)) o = some (.many (ws ++ [o])) from by
        unfold slotStep
        rw [if_pos (Or.inr ho)]]
      exact ih hos' hw hts _ (Or.inr ⟨ws ++ [o], rfl⟩)

theorem slotFold_last {p : String} (hp : p ≠ hasContextPred) {vs : List Obj}
    (hord : oliaOrdered vs = true) (hmix : ∃ v ∈ vs, inOlia v = false) :
    ∃ w, vs.getLast? = some w ∧ slotFold p vs = some (some (.one w)) := by
  have hdec : vs.takeWhile inOlia ++ vs.dropWhile inOlia = vs :=
    List.takeWhile_append_dropWhile inOlia vs
  have hos : ∀ v ∈ vs.takeWhile inOlia, inOlia v = true := fun v hv =>
    List.mem_takeWhile_imp hv
  have hdw : ∀ v ∈ vs.dropWhile inOlia, inOlia v = false := by
    intro v hv
    have := (List.all_eq_true.1 hord) v hv
    simpa using this
  cases hd : vs.dropWhile inOlia with
  | nil =>
    exfalso
    obtain ⟨v, hv, hvf⟩ := hmix
    rw [← hdec, hd, List.append_nil] at hv
    rw [hos v hv] at hvf
    cases hvf
  | cons w ts =>
    have hw : inOlia w = false := by
      apply hdw
      rw [hd]
      exact List.mem_cons_self _ _
    have hts : ∀ v ∈ ts, inOlia v = false := by
      intro v hv
      apply hdw
      rw [hd]
      exact List.mem_cons_of_mem _ hv
    refine ⟨ts.getLast?.getD w, ?_, ?_⟩
    · rw [← hdec, hd]
      rw [List.getLast?_append, getLast?_cons_eq w ts]
      rfl
    · rw [← hdec, hd]
      exact slotFoldF_mixed hp hos hw hts none (Or.inl rfl)

/-! ## Lemmas about the reconstruction -/

theorem mem_typedRows {st : Store} {ty : Obj} {t : Triple} :
    t ∈ typedRows st ty ↔ t ∈ st ∧ (t.1, rdfTypePred, ty) ∈ st := by
  simp [typedRows, List.mem_filter]

theorem mem_typedRows_subjects {st : Store} {ty : Obj} {u : Obj} :
    u ∈ (typedRows st ty).map (fun t => t.1) ↔ (u, rdfTypePred, ty) ∈ st := by
  simp only [List.mem_map]
  constructor
  · rintro ⟨t, ht, rfl⟩
    exact (mem_typedRows.1 ht).2
  · intro h
    exact ⟨(u, rdfTypePred, ty), mem_typedRows.2 ⟨h, h⟩, rfl⟩

theorem aggSlot_cons_self (c0 : Obj) (pm : PredMap) (rest : Agg) (p : String) :
    aggSlot ((c0, pm) :: rest) c0 p = alistGet pm p := by
  unfold aggSlot alistGet
  rw [if_pos rfl]

theorem loadContext_uri (st : Store) (u : Obj) : (loadContext st u).uri = u := rfl

theorem buildFromUris_contexts (st : Store) (cu : Obj) (uris : List Obj) :
    (buildFromUris st cu uris).contexts = (firstSeen uris).map (loadContext st) := by
  have haux : ∀ (us : List Obj) (ss : List Obj),
      buildFromUrisAux st (ss.map (loadContext st)) us =
        (ss ++ firstSeenAux ss us).map (loadContext st) := by
    intro us
    induction us with
    | nil => intro ss; simp [buildFromUrisAux, firstSeenAux]
    | cons u us ih =>
      intro ss
      have hmap : (ss.map (loadContext st)).map (fun c => c.uri) = ss := by
        rw [List.map_map]
        exact List.map_id ss
      show (if u ∈ (ss.map (loadContext st)).map (fun c => c.uri) then
        buildFromUrisAux st (ss.map (loadContext st)) us
        else buildFromUrisAux st (ss.map (loadContext st) ++ [loadContext st u]) us) = _
      rw [hmap]
      by_cases hu : u ∈ ss
      · rw [if_pos hu, ih ss, firstSeenAux, if_pos hu]
      · rw [if_neg hu]
        have hconv : ss.map (loadContext st) ++ [loadContext st u] =
            (ss ++ [u]).map (loadContext st) := by simp
        rw [hconv, ih (ss ++ [u]), firstSeenAux, if_neg hu, List.append_assoc,
          List.singleton_append]
        have hcong : firstSeenAux (ss ++ [u]) us = firstSeenAux (u :: ss) us :=
          firstSeenAux_congr us fun x => by
            simp [List.mem_cons, List.mem_append, or_comm]
        rw [hcong]
  have hnil := haux uris []
  simp only [List.map_nil, List.nil_append] at hnil
  rw [buildFromUris]
  exact hnil

theorem buildFromUris_map_uri (st : Store) (cu : Obj) (uris : List Obj) :
    (buildFromUris st cu uris).contexts.map (fun c => c.uri) = firstSeen uris := by
  rw [buildFromUris_contexts, List.map_map]
  have : ((fun c : LoadedContext => c.uri) ∘ loadContext st) = fun u => u := rfl
  rw [this]
  exact List.map_id _

/-! ## C2: tie-break on the first Collection-typed subject -/

/-- C2 amended: whenever the two aggregations of the reconstruction do not
raise, the `collection` property returns exactly one collection.  If any
Collection-typed subject exists, the result is built from the first such
subject encountered in store iteration order: its URI is that subject and
its context identifiers are exactly the objects of that subject's
`nif:hasContext` statements, every other Collection-typed subject being
ignored.  Only when no Collection-typed subject exists is the result
synthesized from the supplied default URI with every Context-typed subject
of the store as its contexts. -/
theorem c2_first_collection (st : Store) (d : String)
    (h1 : (queryRdfType st contextCollectionType).isSome = true)
    (h2 : (queryRdfType st contextType).isSome = true) :
    ∃ R, NifGraph.collection st d = some R ∧
      (collSubjects st ≠ [] →
        (collSubjects st).head? = some R.uri ∧
        ∀ u, u ∈ R.contexts.map (fun c => c.uri) ↔ u ∈ hasContextObjs st R.uri) ∧
      (collSubjects st = [] →
        R.uri = Obj.uri d ∧
        ∀ u, u ∈ R.contexts.map (fun c => c.uri) ↔
          (u, rdfTypePred, contextType) ∈ st) := by
  obtain ⟨m1, hm1⟩ := Option.isSome_iff_exists.1 h1
  obtain ⟨m2, hm2⟩ := Option.isSome_iff_exists.1 h2
  have hm1' : aggregate (typedRows st contextCollectionType) = some m1 := hm1
  have hm2' : aggregate (typedRows st contextType) = some m2 := hm2
  have hkeys : aggKeys m1 = firstSeen (collSubjects st) := aggregate_keys hm1'
  cases m1 with
  | nil =>
    have hempty : collSubjects st = [] := by
      cases hcs : collSubjects st with
      | nil => rfl
      | cons x xs =>
        exfalso
        have hx : x ∈ firstSeen (collSubjects st) := by
          rw [mem_firstSeen, hcs]
          exact List.mem_cons_self _ _
        rw [← hkeys] at hx
        simp [aggKeys] at hx
    refine ⟨buildFromUris st (Obj.uri d) (m2.map fun x => x.1), ?_, ?_, ?_⟩
    · simp only [NifGraph.collection, hm1', hm2']
    · intro hne
      exact absurd hempty hne
    · intro _
      refine ⟨rfl, fun u => ?_⟩
      rw [buildFromUris_map_uri, mem_firstSeen]
      have hk2 : aggKeys m2 = firstSeen ((typedRows st contextType).map fun t => t.1) :=
        aggregate_keys hm2'
      show u ∈ aggKeys m2 ↔ _
      rw [hk2, mem_firstSeen, mem_typedRows_subjects]
  | cons hd tl =>
    obtain ⟨c0, pm⟩ := hd
    have hhead : (collSubjects st).head? = some c0 := by
      rw [← head?_firstSeen, ← hkeys]
      rfl
    have hslot := aggregate_slot hm1' c0 hasContextPred
    rw [aggSlot_cons_self] at hslot
    refine ⟨buildFromUris st c0 (match alistGet pm hasContextPred with
      | some pv => predValObjs pv
      | none => []), ?_, ?_, ?_⟩
    · simp only [NifGraph.collection, hm1', hm2']
    · intro _
      refine ⟨hhead, fun u => ?_⟩
      rw [buildFromUris_map_uri, mem_firstSeen]
      show u ∈ (match alistGet pm hasContextPred with
        | some pv => predValObjs pv
        | none => []) ↔ u ∈ hasContextObjs st c0
      cases hvals : hasContextObjs st c0 with
      | nil =>
        rw [hasContextObjs] at hvals
        rw [hvals] at hslot
        have : alistGet pm hasContextPred = none := by
          have hfold : slotFold hasContextPred ([] : List Obj) = some none := rfl
          rw [hfold] at hslot
          injection hslot with hs
          exact hs.symm
        rw [this]
      | cons v vs =>
        rw [hasContextObjs] at hvals
        rw [hvals] at hslot
        rw [slotFold_many (by simp) (fun x _ => Or.inl rfl)] at hslot
        have : alistGet pm hasContextPred = some (.many (v :: vs)) := by
          injection hslot with hs
          exact hs.symm
        rw [this]
        exact Iff.rfl
    · intro hempty
      exfalso
      have hc0 : c0 ∈ firstSeen (collSubjects st) := by
        rw [← hkeys]
        exact List.mem_cons_self _ _
      rw [mem_firstSeen, hempty] at hc0
      simp at hc0

/-- C2 counterexample: a store with a Collection-typed subject on which the
reconstruction raises (an OLIA-namespace value follows a plain value on the
same subject and predicate) — the property returns no collection at all,
first or otherwise. -/
theorem c2_counterexample :
    (Obj.uri "https://ex.org/c", rdfTypePred, contextCollectionType) ∈ c2CrashStore ∧
    NifGraph.collection c2CrashStore "https://mangosaurus.eu/rdf-data/" = none := by
  decide

/-- C2 witness: the amended statement at a concrete store holding two
Collection-typed subjects. -/
theorem c2_witness :
    ∃ R, NifGraph.collection c2WitStore "https://mangosaurus.eu/rdf-data/" = some R ∧
      (collSubjects c2WitStore ≠ [] →
        (collSubjects c2WitStore).head? = some R.uri ∧
        ∀ u, u ∈ R.contexts.map (fun c => c.uri) ↔
          u ∈ hasContextObjs c2WitStore R.uri) ∧
      (collSubjects c2WitStore = [] →
        R.uri = Obj.uri "https://mangosaurus.eu/rdf-data/" ∧
        ∀ u, u ∈ R.contexts.map (fun c => c.uri) ↔
          (u, rdfTypePred, contextType) ∈ c2WitStore) :=
  c2_first_collection c2WitStore "https://mangosaurus.eu/rdf-data/"
    (by decide) (by decide)

/-! ## C4: the aggregation rule -/

theorem oliaOrdered_of_all_not {vs : List Obj} (h : ∀ v ∈ vs, inOlia v = false) :
    oliaOrdered vs = true := by
  rw [oliaOrdered, List.all_eq_true]
  intro v hv
  have hvm : v ∈ vs := List.Sublist.mem hv (List.dropWhile_sublist _)
  simp [h v hvm]

theorem oliaOrdered_of_rows {rows : List Triple}
    (h : ∀ t ∈ rows, inOlia t.2.2 = false) (s : Obj) (p : String) :
    oliaOrdered (findObjs rows s p) = true :=
  oliaOrdered_of_all_not fun v hv => h (s, p, v) (mem_findObjs.1 hv)

/-- C4 amended: the query rows are aggregated per subject into a
predicate-to-value dict in which `nif:hasContext` slots and slots whose
values all lie in the OLIA namespace accumulate into lists in first-seen
(row) order, while a slot holding a value outside the OLIA namespace keeps
only the last-seen value — provided no OLIA value arrives on a slot after a
non-OLIA value on the same subject and predicate; otherwise the aggregation
raises `AttributeError` instead of producing a mapping (see the
counterexample). -/
theorem c4_aggregation_rule (st : Store) (ty : Obj)
    (h : ∀ s p, p ≠ hasContextPred →
      oliaOrdered (findObjs (typedRows st ty) s p) = true) :
    ∃ m, queryRdfType st ty = some m ∧
      (∀ s p, (p = hasContextPred ∨
          ∀ v ∈ findObjs (typedRows st ty) s p, inOlia v = true) →
        aggSlot m s p = if findObjs (typedRows st ty) s p = [] then none
          else some (.many (findObjs (typedRows st ty) s p))) ∧
      (∀ s p, p ≠ hasContextPred →
        (∃ v ∈ findObjs (typedRows st ty) s p, inOlia v = false) →
        ∃ w, (findObjs (typedRows st ty) s p).getLast? = some w ∧
          aggSlot m s p = some (.one w)) := by
  have hsucc : ∀ s p, slotFold p (findObjs (typedRows st ty) s p) ≠ none := by
    intro s p
    by_cases hc : findObjs (typedRows st ty) s p = []
    · rw [hc]
      simp [slotFold, slotFoldF]
    · by_cases hp : p = hasContextPred
      · subst hp
        rw [slotFold_many hc fun v _ => Or.inl rfl]
        simp
      · by_cases hall : ∀ v ∈ findObjs (typedRows st ty) s p, inOlia v = true
        · rw [slotFold_many hc fun v hv => Or.inr (hall v hv)]
          simp
        · push_neg at hall
          obtain ⟨v, hv, hvf⟩ := hall
          have hvf' : inOlia v = false := by simpa using hvf
          obtain ⟨w, _, hw2⟩ := slotFold_last hp (h s p hp) ⟨v, hv, hvf'⟩
          rw [hw2]
          simp
  obtain ⟨m, hm⟩ := aggregate_isSome hsucc
  refine ⟨m, hm, ?_, ?_⟩
  · intro s p hp
    have hs := aggregate_slot hm s p
    by_cases hc : findObjs (typedRows st ty) s p = []
    · rw [hc] at hs ⊢
      rw [if_pos rfl]
      have hfold : (some none : Option (Option PredVal)) = some (aggSlot m s p) := hs
      injection hfold with hres
      exact hres.symm
    · rw [if_neg hc]
      rcases hp with hp | hall
      · subst hp
        rw [slotFold_many hc fun v _ => Or.inl rfl] at hs
        injection hs with hres
        exact hres.symm
      · rw [slotFold_many hc fun v hv => Or.inr (hall v hv)] at hs
        injection hs with hres
        exact hres.symm
  · intro s p hp hex
    have hs := aggregate_slot hm s p
    obtain ⟨w, hw1, hw2⟩ := slotFold_last hp (h s p hp) hex
    rw [hw2] at hs
    injection hs with hres
    exact ⟨w, hw1, hres.symm⟩

/-- C4 counterexample: on a subject carrying a plain literal and then an
OLIA-namespace value on the same predicate, the aggregation raises
(`append` on a single value) and produces no mapping at all — neither an
accumulated list nor a last-seen value. -/
theorem c4_counterexample :
    queryRdfType c4CrashStore contextType = none ∧
    (Obj.uri "https://ex.org/w", "nif:oliaLink", Obj.uri "olia:Verb") ∈ c4CrashStore := by
  decide

/-- C4 witness: the amended statement at a concrete store with a repeated
single-valued predicate. -/
theorem c4_witness :
    ∃ m, queryRdfType c4WitStore contextType = some m ∧
      (∀ s p, (p = hasContextPred ∨
          ∀ v ∈ findObjs (typedRows c4WitStore contextType) s p, inOlia v = true) →
        aggSlot m s p = if findObjs (typedRows c4WitStore contextType) s p = [] then none
          else some (.many (findObjs (typedRows c4WitStore contextType) s p))) ∧
      (∀ s p, p ≠ hasContextPred →
        (∃ v ∈ findObjs (typedRows c4WitStore contextType) s p, inOlia v = false) →
        ∃ w, (findObjs (typedRows c4WitStore contextType) s p).getLast? = some w ∧
          aggSlot m s p = some (.one w)) :=
  c4_aggregation_rule c4WitStore contextType
    (fun s p _ => oliaOrdered_of_rows (by decide) s p)

/-! ## C10: the default URI of the fallback collection -/

/-- C10: the public `collection` property accessor passes no `uri` argument
— the getter can only ever run with `DEFAULT_URI` — so whenever no
Collection-typed subject exists in the store and a collection is returned,
the synthesized collection carries exactly the URI
`https://mangosaurus.eu/rdf-data/`. -/
theorem c10_default_uri (st : Store)
    (h : ∀ s : Obj, ((s, rdfTypePred, contextCollectionType) : Triple) ∉ st)
    (R : LoadedCollection) (hR : collectionProperty st = some R) :
    R.uri = Obj.uri "https://mangosaurus.eu/rdf-data/" := by
  have hrows : typedRows st contextCollectionType = [] := by
    refine List.filter_eq_nil_iff.2 fun t ht => ?_
    simp only [decide_eq_true_eq]
    exact fun hc => h t.1 hc
  have hm1 : aggregate (typedRows st contextCollectionType) = some [] := by
    rw [hrows]
    rfl
  cases hm2 : aggregate (typedRows st contextType) with
  | none =>
    simp only [collectionProperty, NifGraph.collection, hm1, hm2] at hR
    exact Option.noConfusion hR
  | some m2 =>
    simp only [collectionProperty, NifGraph.collection, hm1, hm2] at hR
    injection hR with hR
    rw [← hR]
    rfl

/-- C10 witness: at a concrete store with one Context-typed subject and no
Collection-typed subject, the returned collection carries the default
URI. -/
theorem c10_witness :
    ∃ R, collectionProperty c10WitStore = some R ∧
      R.uri = Obj.uri "https://mangosaurus.eu/rdf-data/" := by
  refine ⟨buildFromUris c10WitStore (Obj.uri defaultUri) [Obj.uri "https://ex.org/ctx"],
    by decide, ?_⟩
  refine c10_default_uri c10WitStore ?_ _ (by decide)
  intro s hmem
  simp [c10WitStore, contextCollectionType, contextType, rdfTypePred] at hmem

/-! ## C9: the catalog view -/

/-- C9 amended: whenever every Context-typed subject has a value for every
collected dc/dcterms metadata column (otherwise the data construction
raises `KeyError`, see the counterexample), the catalog holds exactly one
row per Context-typed subject in first-seen order, its columns sorted by
name, with a `dcterms:conformsTo` column holding the single comma-joined
collection-wide conformance value replicated identically on every row, and
each row holding the aggregated metadata cells of its subject. -/
theorem c9_catalog_shape (st : Store)
    (h : ∀ i ∈ catalogIndex st, ∀ c ∈ catalogCols0 st,
      (dLookup (typedRows st contextType) i c).isSome = true) :
    ∃ t, NifGraph.catalog st = some t ∧
      (∀ s, s ∈ t.index ↔ (s, rdfTypePred, contextType) ∈ st) ∧
      t.index.Nodup ∧
      t.data.length = t.index.length ∧
      List.Sorted (fun a b : String => a ≤ b) t.cols ∧
      conformsToPred ∈ t.cols ∧
      t.data = t.index.map (fun i => t.cols.map
        (catalogCell st (typedRows st contextType) i)) ∧
      ∀ row ∈ t.data, ∀ i : Nat, t.cols[i]? = some conformsToPred →
        row[i]? = some (Obj.lit (joinedConformsTo st)) := by
  have hguard : (catalogIndex st).all (fun i => (catalogCols0 st).all
      fun c => (dLookup (typedRows st contextType) i c).isSome) = true := by
    rw [List.all_eq_true]
    intro i hi
    rw [List.all_eq_true]
    intro c hc
    exact h i hi c hc
  refine ⟨Table.mk (catalogCols st) (catalogIndex st)
      ((catalogIndex st).map fun i => (catalogCols st).map
        fun c => catalogCell st (typedRows st contextType) i c),
    ?_, ?_, ?_, ?_, ?_, ?_, ?_, ?_⟩
  · show NifGraph.catalog st = some _
    unfold NifGraph.catalog
    rw [if_pos hguard]
  · intro s
    show s ∈ catalogIndex st ↔ _
    unfold catalogIndex
    rw [mem_firstSeen, mem_typedRows_subjects]
  · exact nodup_firstSeen _
  · simp
  · exact List.sorted_insertionSort _ _
  · show conformsToPred ∈ catalogCols st
    unfold catalogCols
    rw [List.Perm.mem_iff (List.perm_insertionSort _ _)]
    split
    · rename_i hmem
      exact hmem
    · simp
  · rfl
  · intro row hrow i hi
    simp only [List.mem_map] at hrow
    obtain ⟨j, _, rfl⟩ := hrow
    rw [List.getElem?_map, hi]
    show some (catalogCell st (typedRows st contextType) j conformsToPred) = _
    rw [show catalogCell st (typedRows st contextType) j conformsToPred =
      Obj.lit (joinedConformsTo st) from by
        unfold catalogCell
        rw [if_pos rfl]]

/-- C9 counterexample: with a metadata value on one context and a second
context lacking it, building the data rows raises `KeyError` and no catalog
is produced. -/
theorem c9_counterexample :
    NifGraph.catalog c9CrashStore = none ∧
    (Obj.uri "https://ex.org/c2", rdfTypePred, contextType) ∈ c9CrashStore := by
  decide

/-! ## C1: the round trip, inversion lemmas on the emitted statements -/

theorem mem_ct_iff {C : NifContextCollection} {t : Triple} :
    t ∈ collectionTriples C ↔
      t = (.uri C.uri, rdfTypePred, contextCollectionType) ∨
      t = (.uri C.uri, conformsToPred, .uri C.conformsTo) ∨
      (∃ c ∈ C.contexts, t = (.uri C.uri, hasContextPred, .uri c.uri)) ∨
      (∃ c ∈ C.contexts,
        t = (.uri c.uri, rdfTypePred, contextType) ∨
        t = (.uri c.uri, isStringPred, .lit c.text) ∨
        (∃ sp ∈ c.spans,
          t = (.uri (spanUri c.uri sp), rdfTypePred, phraseType) ∨
          t = (.uri (spanUri c.uri sp), referenceContextPred, .uri c.uri) ∨
          t = (.uri (spanUri c.uri sp), beginIndexPred, .litNat sp.offB) ∨
          t = (.uri (spanUri c.uri sp), endIndexPred, .litNat sp.offE) ∨
          t = (.uri (spanUri c.uri sp), anchorOfPred, .lit sp.lbl))) := by
  simp only [collectionTriples, contextTriples, spanTriples, List.mem_append,
    List.mem_cons, List.mem_flatMap, List.mem_map, List.not_mem_nil, or_false]
  constructor
  · rintro (((rfl | rfl) | ⟨c, hc, rfl⟩) | ⟨c, hc, (rfl | rfl) | ⟨sp, hsp,
      rfl | rfl | rfl | rfl | rfl⟩⟩)
    · exact Or.inl rfl
    · exact Or.inr (Or.inl rfl)
    · exact Or.inr (Or.inr (Or.inl ⟨c, hc, rfl⟩))
    · exact Or.inr (Or.inr (Or.inr ⟨c, hc, Or.inl rfl⟩))
    · exact Or.inr (Or.inr (Or.inr ⟨c, hc, Or.inr (Or.inl rfl)⟩))
    · exact Or.inr (Or.inr (Or.inr ⟨c, hc, Or.inr (Or.inr ⟨sp, hsp, Or.inl rfl⟩)⟩))
    · exact Or.inr (Or.inr (Or.inr ⟨c, hc, Or.inr (Or.inr
        ⟨sp, hsp, Or.inr (Or.inl rfl)⟩)⟩))
    · exact Or.inr (Or.inr (Or.inr ⟨c, hc, Or.inr (Or.inr
        ⟨sp, hsp, Or.inr (Or.inr (Or.inl rfl))⟩)⟩))
    · exact Or.inr (Or.inr (Or.inr ⟨c, hc, Or.inr (Or.inr
        ⟨sp, hsp, Or.inr (Or.inr (Or.inr (Or.inl rfl)))⟩)⟩))
    · exact Or.inr (Or.inr (Or.inr ⟨c, hc, Or.inr (Or.inr
        ⟨sp, hsp, Or.inr (Or.inr (Or.inr (Or.inr rfl)))⟩)⟩))
  · rintro (rfl | rfl | ⟨c, hc, rfl⟩ | ⟨c, hc, rfl | rfl | ⟨sp, hsp,
      rfl | rfl | rfl | rfl | rfl⟩⟩)
    · exact Or.inl (Or.inl (Or.inl rfl))
    · exact Or.inl (Or.inl (Or.inr rfl))
    · exact Or.inl (Or.inr ⟨c, hc, rfl⟩)
    · exact Or.inr ⟨c, hc, Or.inl (Or.inl rfl)⟩
    · exact Or.inr ⟨c, hc, Or.inl (Or.inr rfl)⟩
    · exact Or.inr ⟨c, hc, Or.inr ⟨sp, hsp, Or.inl rfl⟩⟩
    · exact Or.inr ⟨c, hc, Or.inr ⟨sp, hsp, Or.inr (Or.inl rfl)⟩⟩
    · exact Or.inr ⟨c, hc, Or.inr ⟨sp, hsp, Or.inr (Or.inr (Or.inl rfl))⟩⟩
    · exact Or.inr ⟨c, hc, Or.inr ⟨sp, hsp,
        Or.inr (Or.inr (Or.inr (Or.inl rfl)))⟩⟩
    · exact Or.inr ⟨c, hc, Or.inr ⟨sp, hsp,
        Or.inr (Or.inr (Or.inr (Or.inr rfl)))⟩⟩

theorem typeColl_inv {C : NifContextCollection} {s : Obj} :
    ((s, rdfTypePred, contextCollectionType) : Triple) ∈ collectionTriples C ↔
      s = Obj.uri C.uri := by
  rw [mem_ct_iff]
  simp [rdfTypePred, conformsToPred, hasContextPred, isStringPred, beginIndexPred,
    endIndexPred, referenceContextPred, anchorOfPred, contextCollectionType,
    contextType, phraseType, Prod.ext_iff]

theorem typeCtx_inv {C : NifContextCollection} {s : Obj} :
    ((s, rdfTypePred, contextType) : Triple) ∈ collectionTriples C ↔
      ∃ c ∈ C.contexts, s = Obj.uri c.uri := by
  rw [mem_ct_iff]
  simp [rdfTypePred, conformsToPred, hasContextPred, isStringPred, beginIndexPred,
    endIndexPred, referenceContextPred, anchorOfPred, contextCollectionType,
    contextType, phraseType, Prod.ext_iff]

theorem hasCtx_inv {C : NifContextCollection} {s v : Obj} :
    ((s, hasContextPred, v) : Triple) ∈ collectionTriples C ↔
      s = Obj.uri C.uri ∧ ∃ c ∈ C.contexts, v = Obj.uri c.uri := by
  rw [mem_ct_iff]
  simp [rdfTypePred, conformsToPred, hasContextPred, isStringPred, beginIndexPred,
    endIndexPred, referenceContextPred, anchorOfPred, contextCollectionType,
    contextType, phraseType, Prod.ext_iff]
  tauto

theorem conf_inv {C : NifContextCollection} {s v : Obj} :
    ((s, conformsToPred, v) : Triple) ∈ collectionTriples C ↔
      s = Obj.uri C.uri ∧ v = Obj.uri C.conformsTo := by
  rw [mem_ct_iff]
  simp [rdfTypePred, conformsToPred, hasContextPred, isStringPred, beginIndexPred,
    endIndexPred, referenceContextPred, anchorOfPred, contextCollectionType,
    contextType, phraseType, Prod.ext_iff]

theorem isStr_inv {C : NifContextCollection} {s v : Obj} :
    ((s, isStringPred, v) : Triple) ∈ collectionTriples C ↔
      ∃ c ∈ C.contexts, s = Obj.uri c.uri ∧ v = Obj.lit c.text := by
  rw [mem_ct_iff]
  simp [rdfTypePred, conformsToPred, hasContextPred, isStringPred, beginIndexPred,
    endIndexPred, referenceContextPred, anchorOfPred, contextCollectionType,
    contextType, phraseType, Prod.ext_iff]

theorem refCtx_inv {C : NifContextCollection} {s v : Obj} :
    ((s, referenceContextPred, v) : Triple) ∈ collectionTriples C ↔
      ∃ c ∈ C.contexts, ∃ sp ∈ c.spans,
        s = Obj.uri (spanUri c.uri sp) ∧ v = Obj.uri c.uri := by
  rw [mem_ct_iff]
  simp [rdfTypePred, conformsToPred, hasContextPred, isStringPred, beginIndexPred,
    endIndexPred, referenceContextPred, anchorOfPred, contextCollectionType,
    contextType, phraseType, Prod.ext_iff]

theorem begin_inv {C : NifContextCollection} {s v : Obj} :
    ((s, beginIndexPred, v) : Triple) ∈ collectionTriples C ↔
      ∃ c ∈ C.contexts, ∃ sp ∈ c.spans,
        s = Obj.uri (spanUri c.uri sp) ∧ v = Obj.litNat sp.offB := by
  rw [mem_ct_iff]
  simp [rdfTypePred, conformsToPred, hasContextPred, isStringPred, beginIndexPred,
    endIndexPred, referenceContextPred, anchorOfPred, contextCollectionType,
    contextType, phraseType, Prod.ext_iff]

theorem endIdx_inv {C : NifContextCollection} {s v : Obj} :
    ((s, endIndexPred, v) : Triple) ∈ collectionTriples C ↔
      ∃ c ∈ C.contexts, ∃ sp ∈ c.spans,
        s = Obj.uri (spanUri c.uri sp) ∧ v = Obj.litNat sp.offE := by
  rw [mem_ct_iff]
  simp [rdfTypePred, conformsToPred, hasContextPred, isStringPred, beginIndexPred,
    endIndexPred, referenceContextPred, anchorOfPred, contextCollectionType,
    contextType, phraseType, Prod.ext_iff]

theorem anchor_inv {C : NifContextCollection} {s v : Obj} :
    ((s, anchorOfPred, v) : Triple) ∈ collectionTriples C ↔
      ∃ c ∈ C.contexts, ∃ sp ∈ c.spans,
        s = Obj.uri (spanUri c.uri sp) ∧ v = Obj.lit sp.lbl := by
  rw [mem_ct_iff]
  simp [rdfTypePred, conformsToPred, hasContextPred, isStringPred, beginIndexPred,
    endIndexPred, referenceContextPred, anchorOfPred, contextCollectionType,
    contextType, phraseType, Prod.ext_iff]

theorem subj_coll_pred {C : NifContextCollection} (hwf : Wellformed C) {t : Triple}
    (ht : t ∈ collectionTriples C) (hs : t.1 = Obj.uri C.uri) :
    t.2.1 = rdfTypePred ∨ t.2.1 = conformsToPred ∨ t.2.1 = hasContextPred := by
  obtain ⟨-, -, -, hctxColl, hspanColl⟩ := hwf
  rw [mem_ct_iff] at ht
  rcases ht with rfl | rfl | ⟨c, hc, rfl⟩ | ⟨c, hc, rfl | rfl | ⟨sp, hsp,
    rfl | rfl | rfl | rfl | rfl⟩⟩
  · exact Or.inl rfl
  · exact Or.inr (Or.inl rfl)
  · exact Or.inr (Or.inr rfl)
  all_goals simp only [Obj.uri.injEq] at hs
  · exact absurd hs (hctxColl c hc)
  · exact absurd hs (hctxColl c hc)
  all_goals exact absurd hs (hspanColl c hc sp hsp)

theorem subj_ctx_pred {C : NifContextCollection} (hwf : Wellformed C)
    {c : NifContext} (hc : c ∈ C.contexts) {t : Triple}
    (ht : t ∈ collectionTriples C) (hs : t.1 = Obj.uri c.uri) :
    t.2.1 = rdfTypePred ∨ t.2.1 = isStringPred := by
  obtain ⟨-, -, hspanCtx, hctxColl, -⟩ := hwf
  rw [mem_ct_iff] at ht
  rcases ht with rfl | rfl | ⟨c2, hc2, rfl⟩ | ⟨c2, hc2, rfl | rfl | ⟨sp, hsp,
    rfl | rfl | rfl | rfl | rfl⟩⟩
  all_goals simp only [Obj.uri.injEq] at hs
  · exact absurd hs.symm (hctxColl c hc)
  · exact absurd hs.symm (hctxColl c hc)
  · exact absurd hs.symm (hctxColl c hc)
  · exact Or.inl rfl
  · exact Or.inr rfl
  all_goals exact absurd hs (hspanCtx c2 hc2 sp hsp c hc)

theorem list_eq_singleton {α : Type} {l : List α} {a : α} (hnd : l.Nodup)
    (ha : a ∈ l) (huniq : ∀ x ∈ l, x = a) : l = [a] := by
  cases l with
  | nil => cases ha
  | cons b rest =>
    have hb : b = a := huniq b (List.mem_cons_self _ _)
    subst hb
    have hrest : rest = [] := by
      cases hxs : rest with
      | nil => rfl
      | cons x xs =>
        exfalso
        have hx : x = b := huniq x (by simp [hxs])
        subst hx
        have := (List.nodup_cons.1 hnd).1
        rw [hxs] at this
        exact this (List.mem_cons_self _ _)
    rw [hrest]

theorem findObjs_singleton {rows : List Triple} (hnd : rows.Nodup) {s : Obj}
    {p : String} {v : Obj} (hmem : (s, p, v) ∈ rows)
    (huniq : ∀ w, (s, p, w) ∈ rows → w = v) :
    findObjs rows s p = [v] := by
  unfold findObjs
  have hfil : rows.filter (fun t => decide (t.1 = s ∧ t.2.1 = p)) = [(s, p, v)] := by
    apply list_eq_singleton (List.Nodup.filter _ hnd)
    · rw [List.mem_filter]
      exact ⟨hmem, by simp⟩
    · intro x hx
      rw [List.mem_filter, decide_eq_true_eq] at hx
      obtain ⟨x1, x2, x3⟩ := x
      obtain ⟨hxm, h1, h2⟩ := hx
      dsimp at h1 h2
      subst h1
      subst h2
      rw [huniq x3 hxm]
  rw [hfil]
  rfl

theorem roundtrip_store_facts {C : NifContextCollection} {store : Store}
    (hperm : store.Perm (addAll [] (collectionTriples C))) :
    (∀ t : Triple, t ∈ store ↔ t ∈ collectionTriples C) ∧ store.Nodup := by
  constructor
  · intro t
    rw [List.Perm.mem_iff hperm, mem_addAll]
    simp
  · exact (List.Perm.nodup_iff hperm).2 (nodup_addAll List.nodup_nil)

theorem rdfType_inv {C : NifContextCollection} {s v : Obj} :
    ((s, rdfTypePred, v) : Triple) ∈ collectionTriples C ↔
      (s = Obj.uri C.uri ∧ v = contextCollectionType) ∨
      (∃ c ∈ C.contexts, s = Obj.uri c.uri ∧ v = contextType) ∨
      (∃ c ∈ C.contexts, ∃ sp ∈ c.spans,
        s = Obj.uri (spanUri c.uri sp) ∧ v = phraseType) := by
  rw [mem_ct_iff]
  simp [rdfTypePred, conformsToPred, hasContextPred, isStringPred, beginIndexPred,
    endIndexPred, referenceContextPred, anchorOfPred, contextCollectionType,
    contextType, phraseType, Prod.ext_iff]
  constructor
  · rintro (h | ⟨c, hc, h | ⟨sp, hsp, h⟩⟩)
    · exact Or.inl h
    · exact Or.inr (Or.inl ⟨c, hc, h⟩)
    · exact Or.inr (Or.inr ⟨c, hc, sp, hsp, h⟩)
  · rintro (h | ⟨c, hc, h⟩ | ⟨c, hc, sp, hsp, h⟩)
    · exact Or.inl h
    · exact Or.inr ⟨c, hc, Or.inl h⟩
    · exact Or.inr ⟨c, hc, Or.inr ⟨sp, hsp, h⟩⟩

theorem loadContext_roundtrip {C : NifContextCollection} {store : Store}
    (hwf : Wellformed C)
    (hmem : ∀ t : Triple, t ∈ store ↔ t ∈ collectionTriples C)
    (hnd : store.Nodup) {c : NifContext} (hc : c ∈ C.contexts) :
    (loadContext store (Obj.uri c.uri)).text = some (Obj.lit c.text) ∧
    ∀ sp : NifSpan, sp ∈ (loadContext store (Obj.uri c.uri)).spans ↔ sp ∈ c.spans := by
  obtain ⟨hinj, hspanInj, hspanCtx, hctxColl, hspanColl⟩ := hwf
  have hctxEq : ∀ c' ∈ C.contexts, c'.uri = c.uri → c' = c :=
    fun c' hc' h => hinj c' hc' c hc h
  have htext : findObjs store (Obj.uri c.uri) isStringPred = [Obj.lit c.text] := by
    apply findObjs_singleton hnd
    · rw [hmem, isStr_inv]
      exact ⟨c, hc, rfl, rfl⟩
    · intro w hw
      rw [hmem, isStr_inv] at hw
      obtain ⟨c', hc', hs, hv⟩ := hw
      have hcc : c' = c := by
        apply hctxEq c' hc'
        simp only [Obj.uri.injEq] at hs
        exact hs.symm
      subst hcc
      exact hv
  have hspanFields : ∀ sp ∈ c.spans,
      extractSpan store (Obj.uri (spanUri c.uri sp)) = some sp := by
    intro sp hsp
    have hb : findObjs store (Obj.uri (spanUri c.uri sp)) beginIndexPred =
        [Obj.litNat sp.offB] := by
      apply findObjs_singleton hnd
      · rw [hmem, begin_inv]
        exact ⟨c, hc, sp, hsp, rfl, rfl⟩
      · intro w hw
        rw [hmem, begin_inv] at hw
        obtain ⟨c', hc', sp', hsp', hs, hv⟩ := hw
        have hseq : spanUri c'.uri sp' = spanUri c.uri sp := by
          simp only [Obj.uri.injEq] at hs
          exact hs.symm
        obtain ⟨hce, hspe⟩ := hspanInj c' hc' sp' hsp' c hc sp hsp hseq
        subst hspe
        exact hv
    have he : findObjs store (Obj.uri (spanUri c.uri sp)) endIndexPred =
        [Obj.litNat sp.offE] := by
      apply findObjs_singleton hnd
      · rw [hmem, endIdx_inv]
        exact ⟨c, hc, sp, hsp, rfl, rfl⟩
      · intro w hw
        rw [hmem, endIdx_inv] at hw
        obtain ⟨c', hc', sp', hsp', hs, hv⟩ := hw
        have hseq : spanUri c'.uri sp' = spanUri c.uri sp := by
          simp only [Obj.uri.injEq] at hs
          exact hs.symm
        obtain ⟨hce, hspe⟩ := hspanInj c' hc' sp' hsp' c hc sp hsp hseq
        subst hspe
        exact hv
    have ha : findObjs store (Obj.uri (spanUri c.uri sp)) anchorOfPred =
        [Obj.lit sp.lbl] := by
      apply findObjs_singleton hnd
      · rw [hmem, anchor_inv]
        exact ⟨c, hc, sp, hsp, rfl, rfl⟩
      · intro w hw
        rw [hmem, anchor_inv] at hw
        obtain ⟨c', hc', sp', hsp', hs, hv⟩ := hw
        have hseq : spanUri c'.uri sp' = spanUri c.uri sp := by
          simp only [Obj.uri.injEq] at hs
          exact hs.symm
        obtain ⟨hce, hspe⟩ := hspanInj c' hc' sp' hsp' c hc sp hsp hseq
        subst hspe
        exact hv
    unfold extractSpan
    rw [hb, he, ha]
    rfl
  have hsubj : ∀ s : Obj, ((s, referenceContextPred, Obj.uri c.uri) : Triple) ∈ store ↔
      ∃ sp ∈ c.spans, s = Obj.uri (spanUri c.uri sp) := by
    intro s
    rw [hmem, refCtx_inv]
    constructor
    · rintro ⟨c', hc', sp', hsp', hs, hv⟩
      have hcc : c' = c := by
        apply hctxEq c' hc'
        simp only [Obj.uri.injEq] at hv
        exact hv.symm
      subst hcc
      exact ⟨sp', hsp', hs⟩
    · rintro ⟨sp, hsp, rfl⟩
      exact ⟨c, hc, sp, hsp, rfl, rfl⟩
  refine ⟨by simp [loadContext, htext], ?_⟩
  intro sp
  show sp ∈ ((store.filter fun t => decide (t.2.1 = referenceContextPred ∧
      t.2.2 = Obj.uri c.uri)).map fun t => t.1).filterMap (extractSpan store) ↔ _
  rw [List.mem_filterMap]
  constructor
  · rintro ⟨s, hsl, hE⟩
    have hsm : ((s, referenceContextPred, Obj.uri c.uri) : Triple) ∈ store := by
      simp only [List.mem_map, List.mem_filter, decide_eq_true_eq] at hsl
      obtain ⟨⟨t1, t2, t3⟩, ⟨htm, h1, h2⟩, rfl⟩ := hsl
      dsimp at h1 h2 ⊢
      subst h1
      subst h2
      exact htm
    obtain ⟨sp', hsp', rfl⟩ := (hsubj s).1 hsm
    rw [hspanFields sp' hsp'] at hE
    injection hE with hE
    rw [← hE]
    exact hsp'
  · intro hsp
    refine ⟨Obj.uri (spanUri c.uri sp), ?_, hspanFields sp hsp⟩
    simp only [List.mem_map, List.mem_filter, decide_eq_true_eq]
    refine ⟨(Obj.uri (spanUri c.uri sp), referenceContextPred, Obj.uri c.uri),
      ⟨?_, rfl, rfl⟩, rfl⟩
    exact (hsubj _).2 ⟨sp, hsp, rfl⟩

/-- C1: converting a wellformed collection with non-empty contexts into its
statement set, adding the statements to a fresh store, and reconstructing a
collection from that store with any default URI yields a collection with
the same set of context identifiers and, for each context, the same raw
text and the same set of span annotations — independently of the iteration
order (any permutation) of the populated store.  The wellformedness
hypotheses are the identifier-uniqueness invariants of spec sections 3 and
4.1, which a collection satisfies by construction. -/
theorem c1_roundtrip (C : NifContextCollection) (hwf : Wellformed C)
    (hne : C.contexts ≠ []) (d : String) (store : Store)
    (hperm : store.Perm (addAll [] (collectionTriples C))) :
    ∃ R, NifGraph.collection store d = some R ∧
      (∀ u : Obj, u ∈ R.contexts.map (fun rc => rc.uri) ↔
        ∃ c ∈ C.contexts, u = Obj.uri c.uri) ∧
      (∀ c ∈ C.contexts, ∃ rc ∈ R.contexts, rc.uri = Obj.uri c.uri ∧
        rc.text = some (Obj.lit c.text) ∧
        ∀ sp : NifSpan, sp ∈ rc.spans ↔ sp ∈ c.spans) := by
  obtain ⟨hmem, hnd⟩ := roundtrip_store_facts hperm
  have hwf2 := hwf
  obtain ⟨hinj, hspanInj, hspanCtx, hctxColl, hspanColl⟩ := hwf2
  have htypeC : (Obj.uri C.uri, rdfTypePred, contextCollectionType) ∈ store := by
    rw [hmem, typeColl_inv]
  have hndC : (typedRows store contextCollectionType).Nodup := List.Nodup.filter _ hnd
  have hndX : (typedRows store contextType).Nodup := List.Nodup.filter _ hnd
  have hmemC : ∀ t : Triple, t ∈ typedRows store contextCollectionType ↔
      t ∈ store ∧ t.1 = Obj.uri C.uri := by
    intro t
    rw [mem_typedRows]
    constructor
    · rintro ⟨h1, h2⟩
      rw [hmem, typeColl_inv] at h2
      exact ⟨h1, h2⟩
    · rintro ⟨h1, h2⟩
      refine ⟨h1, ?_⟩
      rw [h2]
      exact htypeC
  have hmemX : ∀ t : Triple, t ∈ typedRows store contextType ↔
      t ∈ store ∧ ∃ c ∈ C.contexts, t.1 = Obj.uri c.uri := by
    intro t
    rw [mem_typedRows]
    constructor
    · rintro ⟨h1, h2⟩
      rw [hmem, typeCtx_inv] at h2
      exact ⟨h1, h2⟩
    · rintro ⟨h1, c, hc, h2⟩
      refine ⟨h1, ?_⟩
      rw [h2, hmem, typeCtx_inv]
      exact ⟨c, hc, rfl⟩
  have hsuccC : ∀ s p,
      slotFold p (findObjs (typedRows store contextCollectionType) s p) ≠ none := by
    intro s p
    cases hv : findObjs (typedRows store contextCollectionType) s p with
    | nil => simp [slotFold, slotFoldF]
    | cons v vs =>
      have hvm : (s, p, v) ∈ typedRows store contextCollectionType := by
        rw [← mem_findObjs, hv]
        exact List.mem_cons_self _ _
      obtain ⟨hvs, hsubj⟩ := (hmemC _).1 hvm
      dsimp at hsubj
      subst hsubj
      rcases subj_coll_pred hwf ((hmem _).1 hvs) rfl with hp | hp | hp
      · dsimp at hp
        subst hp
        have hsing : findObjs (typedRows store contextCollectionType)
            (Obj.uri C.uri) rdfTypePred = [contextCollectionType] := by
          apply findObjs_singleton hndC
          · rw [hmemC _]
            exact ⟨htypeC, rfl⟩
          · intro w hw
            have hw1 := ((hmemC _).1 hw).1
            rw [hmem, rdfType_inv] at hw1
            rcases hw1 with ⟨-, hwv⟩ | ⟨c', hc', hcs, -⟩ | ⟨c', hc', sp', hsp', hcs, -⟩
            · exact hwv
            · simp only [Obj.uri.injEq] at hcs
              exact absurd hcs.symm (hctxColl c' hc')
            · simp only [Obj.uri.injEq] at hcs
              exact absurd hcs.symm (hspanColl c' hc' sp' hsp')
        rw [hv] at hsing
        injection hsing with h1 h2
        subst h1
        subst h2
        obtain ⟨pv, hpv⟩ := slotFold_single rdfTypePred contextCollectionType
        rw [hpv]
        simp
      · dsimp at hp
        subst hp
        have hsing : findObjs (typedRows store contextCollectionType)
            (Obj.uri C.uri) conformsToPred = [Obj.uri C.conformsTo] := by
          apply findObjs_singleton hndC
          · rw [hmemC _]
            refine ⟨?_, rfl⟩
            rw [hmem, conf_inv]
            exact ⟨rfl, rfl⟩
          · intro w hw
            have hw1 := ((hmemC _).1 hw).1
            rw [hmem, conf_inv] at hw1
            exact hw1.2
        rw [hv] at hsing
        injection hsing with h1 h2
        subst h1
        subst h2
        obtain ⟨pv, hpv⟩ := slotFold_single conformsToPred (Obj.uri C.conformsTo)
        rw [hpv]
        simp
      · dsimp at hp
        subst hp
        rw [slotFold_many (by simp) fun x _ => Or.inl rfl]
        simp
  have hsuccX : ∀ s p,
      slotFold p (findObjs (typedRows store contextType) s p) ≠ none := by
    intro s p
    cases hv : findObjs (typedRows store contextType) s p with
    | nil => simp [slotFold, slotFoldF]
    | cons v vs =>
      have hvm : (s, p, v) ∈ typedRows store contextType := by
        rw [← mem_findObjs, hv]
        exact List.mem_cons_self _ _
      obtain ⟨hvs, c, hc, hsubj⟩ := (hmemX _).1 hvm
      dsimp at hsubj
      subst hsubj
      rcases subj_ctx_pred hwf hc ((hmem _).1 hvs) rfl with hp | hp
      · dsimp at hp
        subst hp
        have hsing : findObjs (typedRows store contextType)
            (Obj.uri c.uri) rdfTypePred = [contextType] := by
          apply findObjs_singleton hndX
          · rw [hmemX _]
            refine ⟨?_, c, hc, rfl⟩
            rw [hmem, typeCtx_inv]
            exact ⟨c, hc, rfl⟩
          · intro w hw
            have hw1 := ((hmemX _).1 hw).1
            rw [hmem, rdfType_inv] at hw1
            rcases hw1 with ⟨hcs, -⟩ | ⟨c', hc', hcs, hwv⟩ | ⟨c', hc', sp', hsp', hcs, -⟩
            · simp only [Obj.uri.injEq] at hcs
              exact absurd hcs (hctxColl c hc)
            · exact hwv
            · simp only [Obj.uri.injEq] at hcs
              exact absurd hcs.symm (hspanCtx c' hc' sp' hsp' c hc)
        rw [hv] at hsing
        injection hsing with h1 h2
        subst h1
        subst h2
        obtain ⟨pv, hpv⟩ := slotFold_single rdfTypePred contextType
        rw [hpv]
        simp
      · dsimp at hp
        subst hp
        have hsing : findObjs (typedRows store contextType)
            (Obj.uri c.uri) isStringPred = [Obj.lit c.text] := by
          apply findObjs_singleton hndX
          · rw [hmemX _]
            refine ⟨?_, c, hc, rfl⟩
            rw [hmem, isStr_inv]
            exact ⟨c, hc, rfl, rfl⟩
          · intro w hw
            have hw1 := ((hmemX _).1 hw).1
            rw [hmem, isStr_inv] at hw1
            obtain ⟨c', hc', hcs, hwv⟩ := hw1
            simp only [Obj.uri.injEq] at hcs
            have hcc : c' = c := hinj c' hc' c hc hcs.symm
            subst hcc
            exact hwv
        rw [hv] at hsing
        injection hsing with h1 h2
        subst h1
        subst h2
        obtain ⟨pv, hpv⟩ := slotFold_single isStringPred (Obj.lit c.text)
        rw [hpv]
        simp
  obtain ⟨mC, hmC⟩ := aggregate_isSome hsuccC
  obtain ⟨mX, hmX⟩ := aggregate_isSome hsuccX
  have hkeysC : aggKeys mC = [Obj.uri C.uri] := by
    rw [aggregate_keys hmC]
    apply firstSeen_all_eq
    · have hrow : (Obj.uri C.uri, rdfTypePred, contextCollectionType) ∈
          typedRows store contextCollectionType := (hmemC _).2 ⟨htypeC, rfl⟩
      exact List.ne_nil_of_mem (List.mem_map_of_mem _ hrow)
    · intro x hx
      obtain ⟨t, ht, rfl⟩ := List.mem_map.1 hx
      exact ((hmemC t).1 ht).2
  have hmCshape : ∃ pm, mC = [(Obj.uri C.uri, pm)] := by
    cases mC with
    | nil => simp [aggKeys] at hkeysC
    | cons hd tl =>
      obtain ⟨k, pm⟩ := hd
      simp only [aggKeys, List.map_cons, List.cons.injEq] at hkeysC
      obtain ⟨hk, htl⟩ := hkeysC
      subst hk
      have htln : tl = [] := List.map_eq_nil_iff.1 htl
      subst htln
      exact ⟨pm, rfl⟩
  obtain ⟨pm, rfl⟩ := hmCshape
  have hslotC := aggregate_slot hmC (Obj.uri C.uri) hasContextPred
  rw [aggSlot_cons_self] at hslotC
  obtain ⟨c0, hc0⟩ : ∃ c0, c0 ∈ C.contexts := List.exists_mem_of_ne_nil _ hne
  have hhc0 : (Obj.uri C.uri, hasContextPred, Obj.uri c0.uri) ∈
      typedRows store contextCollectionType := by
    rw [hmemC]
    refine ⟨?_, rfl⟩
    rw [hmem, hasCtx_inv]
    exact ⟨rfl, c0, hc0, rfl⟩
  have hvne : findObjs (typedRows store contextCollectionType)
      (Obj.uri C.uri) hasContextPred ≠ [] := by
    intro hnil
    have hm0 := mem_findObjs.2 hhc0
    rw [hnil] at hm0
    cases hm0
  rw [slotFold_many hvne fun v _ => Or.inl rfl] at hslotC
  have hpmhc : alistGet pm hasContextPred = some (.many (findObjs
      (typedRows store contextCollectionType) (Obj.uri C.uri) hasContextPred)) := by
    injection hslotC with hs
    exact hs.symm
  have hvmem : ∀ u, u ∈ findObjs (typedRows store contextCollectionType)
      (Obj.uri C.uri) hasContextPred ↔ ∃ c ∈ C.contexts, u = Obj.uri c.uri := by
    intro u
    rw [mem_findObjs]
    constructor
    · intro hu
      have hu1 := ((hmemC _).1 hu).1
      rw [hmem, hasCtx_inv] at hu1
      exact hu1.2
    · rintro ⟨c, hc, rfl⟩
      rw [hmemC]
      refine ⟨?_, rfl⟩
      rw [hmem, hasCtx_inv]
      exact ⟨rfl, c, hc, rfl⟩
  refine ⟨buildFromUris store (Obj.uri C.uri) (predValObjs (.many (findObjs
      (typedRows store contextCollectionType) (Obj.uri C.uri) hasContextPred))),
    ?_, ?_, ?_⟩
  · simp only [NifGraph.collection, hmC, hmX, hpmhc]
  · intro u
    rw [buildFromUris_map_uri, mem_firstSeen]
    exact hvmem u
  · intro c hc
    have hin : Obj.uri c.uri ∈ firstSeen (predValObjs (.many (findObjs
        (typedRows store contextCollectionType) (Obj.uri C.uri) hasContextPred))) := by
      rw [mem_firstSeen]
      exact (hvmem _).2 ⟨c, hc, rfl⟩
    refine ⟨loadContext store (Obj.uri c.uri), ?_, rfl, ?_, ?_⟩
    · rw [buildFromUris_contexts]
      exact List.mem_map_of_mem _ hin
    · exact (loadContext_roundtrip hwf hmem hnd hc).1
    · exact (loadContext_roundtrip hwf hmem hnd hc).2

/-- C1 witness: the round trip at the concrete one-context, one-span
collection of spec section 8, with the canonical population order. -/
theorem c1_witness :
    ∃ R, NifGraph.collection (addAll [] (collectionTriples c1WitColl))
        "https://mangosaurus.eu/rdf-data/" = some R ∧
      (∀ u : Obj, u ∈ R.contexts.map (fun rc => rc.uri) ↔
        ∃ c ∈ c1WitColl.contexts, u = Obj.uri c.uri) ∧
      (∀ c ∈ c1WitColl.contexts, ∃ rc ∈ R.contexts, rc.uri = Obj.uri c.uri ∧
        rc.text = some (Obj.lit c.text) ∧
        ∀ sp : NifSpan, sp ∈ rc.spans ↔ sp ∈ c.spans) :=
  c1_roundtrip c1WitColl (by decide) (by decide)
    "https://mangosaurus.eu/rdf-data/" _ (List.Perm.refl _)

/-- C9 witness: the amended statement at a concrete store with uniform
metadata and a collection-wide conformance profile. -/
theorem c9_witness :
    ∃ t, NifGraph.catalog c9WitStore = some t ∧
      (∀ s, s ∈ t.index ↔ (s, rdfTypePred, contextType) ∈ c9WitStore) ∧
      t.index.Nodup ∧
      t.data.length = t.index.length ∧
      List.Sorted (fun a b : String => a ≤ b) t.cols ∧
      conformsToPred ∈ t.cols ∧
      t.data = t.index.map (fun i => t.cols.map
        (catalogCell c9WitStore (typedRows c9WitStore contextType) i)) ∧
      ∀ row ∈ t.data, ∀ i : Nat, t.cols[i]? = some conformsToPred →
        row[i]? = some (Obj.lit (joinedConformsTo c9WitStore)) :=
  c9_catalog_shape c9WitStore (by decide)

end Nifigator
